import Mathlib

/-!
Shallow embedding of the plan-extraction and region-binding core of
`src/agent/agents.py` (GPT4V-Planner), together with proofs about it.

Strings are modelled as `List Char` (ASCII oriented: the `\d` character class
of the CPython `re` module additionally matches non-ASCII unicode decimal
digits, which this model ignores).  Python floats (detection scores, bounding
box coordinates, config values) are modelled as rationals.  External
collaborators - the detector, the segmentor, the language model and the image
operations - are oracle parameters of the strategy models: each `plan` model
takes the raw model response and the detector/segmentor outputs as inputs and
computes exactly what the Python method computes from them.  Python exceptions
are modelled with `Except`.
-/

abbrev Str := List Char

/-- Value of a decimal digit character. -/
def digitVal (c : Char) : Nat := c.toNat - 48

/-- Python `int` applied to a string of decimal digits (a group captured by
the regex `regions\[(\d+)\]`). -/
def natOfDigits (ds : Str) : Nat := ds.foldl (fun n c => 10 * n + digitVal c) 0

/-- Decimal digit character for a value below ten. -/
def digitChar (d : Nat) : Char := Char.ofNat (48 + d)

/-- Fuelled accumulator loop producing the decimal digits of a natural number. -/
def natDigitsAux : Nat → Nat → Str → Str
  | 0, _, acc => acc
  | f + 1, n, acc => if n = 0 then acc else natDigitsAux f (n / 10) (digitChar (n % 10) :: acc)

/-- Decimal representation of a natural number, as produced by Python string
formatting of an `int` (the `f-string` pieces `regions[...]` are built with it). -/
def natDigits (n : Nat) : Str := if n = 0 then ['0'] else natDigitsAux (n + 1) n []

/-- Opening text of the indexed-reference pattern `regions\[(\d+)\]`. -/
def regionsOpen : Str := "regions[".data

/-- Closing fence of a Markdown code block. -/
def fence : Str := "```".data

/-- Match of the regex `regions\[(\d+)\]` at the head of the string: the
greedy digit group followed by the closing bracket, and the remainder.
Backtracking over `\d+` cannot rescue a failed match (shortening the digit
group never exposes a `]`), so the regex matches at a position exactly when
this function succeeds there. -/
def tokenAt (s : Str) : Option (Str × Str) :=
  if regionsOpen.isPrefixOf s then
    let t := s.drop 8
    let ds := t.takeWhile Char.isDigit
    match t.dropWhile Char.isDigit with
    | ']' :: r => if ds = [] then none else some (ds, r)
    | _ => none
  else none

/-- Fuelled left-to-right scan implementing `re.findall(r'regions\[(\d+)\]', s)`:
at each position try the pattern; on a match continue after it, otherwise
advance one character. -/
def scanRawF : Nat → Str → List Str
  | 0, _ => []
  | _ + 1, [] => []
  | f + 1, c :: cs =>
    match tokenAt (c :: cs) with
    | some (ds, rest) => ds :: scanRawF f rest
    | none => scanRawF f cs

/-- `re.findall(r'regions\[(\d+)\]', s)`: the digit groups of all matches. -/
def scanRaw (s : Str) : List Str := scanRawF s.length s

/-- Indices referenced in a code fragment: `int(index) for index in matches`. -/
def scanIndices (s : Str) : List Nat := (scanRaw s).map natOfDigits

/-- Text `regions[n]` with `n` in canonical decimal, as built by the Python
f-strings substituted into code fragments. -/
def regionRef (n : Nat) : Str := regionsOpen ++ natDigits n ++ [']']

/-- Python `str.replace` with an empty pattern: the replacement is inserted
at every gap. -/
def replaceEmpty (sub : Str) : Str → Str
  | [] => sub
  | c :: cs => sub ++ c :: replaceEmpty sub cs

/-- Fuelled body of Python `str.replace`: replace the leftmost occurrence of
`pat`, continue after the inserted replacement without re-examining it. -/
def replaceF (pat sub : Str) : Nat → Str → Str
  | _, [] => []
  | 0, s => s
  | f + 1, c :: cs =>
    if pat.isPrefixOf (c :: cs) then sub ++ replaceF pat sub f ((c :: cs).drop pat.length)
    else c :: replaceF pat sub f cs

/-- Python `s.replace(pat, sub)`: all non-overlapping occurrences, left to right. -/
def pyReplace (s pat sub : Str) : Str :=
  if pat = [] then replaceEmpty sub s else replaceF pat sub s.length s

/-- Shortest split at a closing fence: `takeUntilFence s = some (p, r)` when
`s = p ++ fence ++ r` and `p` contains no earlier fence - the non-greedy
`(.*?)` of the code block regex. -/
def takeUntilFence : Str → Option (Str × Str)
  | [] => none
  | c :: cs =>
    if fence.isPrefixOf (c :: cs) then some ([], (c :: cs).drop 3)
    else
      match takeUntilFence cs with
      | some (p, r) => some (c :: p, r)
      | none => none

/-- Fuelled scan implementing `re.findall` of a fenced-block regex with opener
`opener` (for example the text made of a fence followed by `python`): collect
the bodies of all blocks, resuming after each closing fence. -/
def findBlocksF (opener : Str) : Nat → Str → List Str
  | 0, _ => []
  | _ + 1, [] => []
  | f + 1, c :: cs =>
    if opener.isPrefixOf (c :: cs) then
      match takeUntilFence ((c :: cs).drop opener.length) with
      | some (body, rest) => body :: findBlocksF opener f rest
      | none => findBlocksF opener f cs
    else findBlocksF opener f cs

def pythonOpen : Str := "```python".data

def jsonOpen : Str := "```json".data

/-- `re.findall` of the python fenced-block regex with `re.DOTALL`. -/
def findPythonBlocks (text : Str) : List Str := findBlocksF pythonOpen text.length text

/-- `re.findall` of the json fenced-block regex with `re.DOTALL`. -/
def findJsonBlocks (text : Str) : List Str := findBlocksF jsonOpen text.length text

/-- Translation of `extract_plans_and_regions` (src/agent/agents.py, lines
57-79).  `none` models the Python return value `(None, None)`, which the
source produces both when no python code block is found and when a referenced
index is out of range (the `IndexError` branch).  `used_indices` models
`sorted(list(set(int(index) for index in matches)))` - CPython builds the
unsorted `list(set(...))` first and then sorts it in place, so only the sorted
result is observable.  The fold models the loop over `index_mapping.items()`,
whose iteration order is the insertion order of the dict comprehension, that
is ascending `old_index`. -/
def extract_plans_and_regions {α : Type} (text : Str) (regions : List α) :
    Option (Str × List α) :=
  match findPythonBlocks text with
  | [] => none
  | code_block :: _ =>
    let ms := scanRaw code_block
    let used_indices := List.insertionSort (· ≤ ·) ((ms.map natOfDigits).dedup)
    let code' := used_indices.enum.foldl
      (fun cb p => pyReplace cb (regionRef p.2) (regionRef p.1)) code_block
    match used_indices.mapM (fun i => regions.get? i) with
    | none => none
    | some filtered => some (code', filtered)

/-- Python exceptions that the modelled code can raise.  `jsonDecodeError`
models `json.JSONDecodeError` (its message and position are not modelled). -/
inductive PyErr where
  | typeError (msg : Str)
  | keyError (key : Str)
  | attributeError (msg : Str)
  | unboundLocal (name : Str)
  | jsonDecodeError
  deriving DecidableEq

/-- Model of the `PlanResult` record (lines 23-55).  The fields that no claim
observes and that only echo external collaborators (prompt text, annotated
image, the diagnostics dict) are omitted. -/
structure PlanResult (α : Type) where
  success : Bool
  error_message : Option Str
  plan_raw : Option Str
  masks : Option (List α)
  plan_code : Option Str
  deriving DecidableEq

/-- Model of one detector result record (see the example at lines 233-241):
the fields that the core reads are `box_name`, `score` and `bbox`. -/
structure Detection where
  box_name : Str
  score : ℚ
  bbox : List ℚ
  deriving DecidableEq

/-- Values stored in a strategy configs dict. -/
inductive CfgVal where
  | nat (n : Nat)
  | str (s : Str)
  | rat (q : ℚ)
  | bool (b : Bool)
  deriving DecidableEq

abbrev CfgDict := List (Str × CfgVal)

/-- Association-list lookup with decidable key equality. -/
def alGet {β : Type} (d : List (Str × β)) (k : Str) : Option β :=
  match d with
  | [] => none
  | p :: rest => if p.1 = k then some p.2 else alGet rest k

/-- Python dict assignment `d[k] = v`: overwrite in place, keeping the
position of an existing key, else append. -/
def dictInsert {β : Type} (k : Str) (v : β) : List (Str × β) → List (Str × β)
  | [] => [(k, v)]
  | p :: rest => if p.1 = k then (k, v) :: rest else p :: dictInsert k v rest

/-- Python `d.update(other)`: the first component is the updated dict
contents, the second is the return value of the method, which is `None`. -/
def pyDictUpdate {β : Type} (d other : List (Str × β)) :
    List (Str × β) × Option (List (Str × β)) :=
  (other.foldl (fun acc p => dictInsert p.1 p.2 acc) d, none)

/-- Python `key in obj` for an optional dict attribute: `in` applied to
`None` raises a `TypeError`. -/
def pyContains (cfg : Option CfgDict) (k : Str) : Except PyErr Bool :=
  match cfg with
  | none => .error (.typeError "argument of type NoneType is not iterable".data)
  | some d => .ok (alGet d k).isSome

/-- Python `obj[key]` for an optional dict attribute: subscripting `None`
raises a `TypeError`, a missing key raises a `KeyError`. -/
def pyGetItem (cfg : Option CfgDict) (k : Str) : Except PyErr CfgVal :=
  match cfg with
  | none => .error (.typeError "NoneType object is not subscriptable".data)
  | some d =>
    match alGet d k with
    | some v => .ok v
    | none => .error (.keyError k)

/-- JSON values as produced by `json.loads`.  Numbers keep their source
lexeme: no modelled code reads a numeric value out of parsed JSON. -/
inductive JsonVal where
  | null
  | bool (b : Bool)
  | num (raw : Str)
  | str (s : Str)
  | arr (items : List JsonVal)
  | obj (fields : List (Str × JsonVal))

def lcurly : Char := Char.ofNat 123

def rcurly : Char := Char.ofNat 125

/-- JSON whitespace. -/
def isJsonWs (c : Char) : Bool := c == ' ' || c == '\n' || c == '\t' || c == '\r'

def skipWs (s : Str) : Str := s.dropWhile isJsonWs

/-- Value of a hexadecimal digit character. -/
def hexVal (c : Char) : Option Nat :=
  if '0' ≤ c ∧ c ≤ '9' then some (c.toNat - 48)
  else if 'a' ≤ c ∧ c ≤ 'f' then some (c.toNat - 87)
  else if 'A' ≤ c ∧ c ≤ 'F' then some (c.toNat - 55)
  else none

/-- Body of a JSON string literal after the opening quote, with the standard
escapes.  Unpaired `\u` surrogates are not recombined (CPython merges
surrogate pairs; no modelled input contains them).  Raw control characters
are rejected, as in strict-mode `json.loads`. -/
def parseStrBody : Nat → Str → Except Unit (Str × Str)
  | 0, _ => .error ()
  | _ + 1, [] => .error ()
  | f + 1, c :: cs =>
    if c = '"' then .ok ([], cs)
    else if c = '\\' then
      match cs with
      | [] => .error ()
      | e :: cs' =>
        if e = 'u' then
          match cs' with
          | h1 :: h2 :: h3 :: h4 :: cs'' =>
            match hexVal h1, hexVal h2, hexVal h3, hexVal h4 with
            | some v1, some v2, some v3, some v4 => do
              let (body, r) ← parseStrBody f cs''
              .ok (Char.ofNat (((v1 * 16 + v2) * 16 + v3) * 16 + v4) :: body, r)
            | _, _, _, _ => .error ()
          | _ => .error ()
        else do
          let ch ← if e = '"' then Except.ok '"'
            else if e = '\\' then Except.ok '\\'
            else if e = '/' then Except.ok '/'
            else if e = 'b' then Except.ok (Char.ofNat 8)
            else if e = 'f' then Except.ok (Char.ofNat 12)
            else if e = 'n' then Except.ok '\n'
            else if e = 'r' then Except.ok '\r'
            else if e = 't' then Except.ok '\t'
            else Except.error ()
          let (body, r) ← parseStrBody f cs'
          .ok (ch :: body, r)
    else if c.toNat < 32 then .error ()
    else do
      let (body, r) ← parseStrBody f cs
      .ok (c :: body, r)

/-- Lexeme of a JSON number (strict grammar: no leading zeros, `.` and
exponent parts need at least one digit). -/
def parseNumLex (s : Str) : Except Unit (Str × Str) := do
  let (sign, s1) := match s with
    | '-' :: r => (['-'], r)
    | _ => ([], s)
  let (ip, s2) ← match s1 with
    | '0' :: r => Except.ok (['0'], r)
    | c :: r =>
      if c.isDigit then
        Except.ok (c :: r.takeWhile Char.isDigit, r.dropWhile Char.isDigit)
      else Except.error ()
    | [] => Except.error ()
  let (fp, s3) ← match s2 with
    | '.' :: r =>
      let ds := r.takeWhile Char.isDigit
      if ds = [] then Except.error () else Except.ok ('.' :: ds, r.dropWhile Char.isDigit)
    | _ => Except.ok ([], s2)
  let (ep, s4) ← match s3 with
    | c :: r =>
      if c = 'e' ∨ c = 'E' then
        let (es, r1) := match r with
          | '+' :: r' => (['+'], r')
          | '-' :: r' => (['-'], r')
          | _ => ([], r)
        let ds := r1.takeWhile Char.isDigit
        if ds = [] then Except.error ()
        else Except.ok (c :: es ++ ds, r1.dropWhile Char.isDigit)
      else Except.ok ([], s3)
    | [] => Except.ok ([], s3)
  .ok (sign ++ ip ++ fp ++ ep, s4)

mutual

/-- Fuelled parser of one JSON value, consuming leading whitespace. -/
def parseVal : Nat → Str → Except Unit (JsonVal × Str)
  | 0, _ => .error ()
  | f + 1, s =>
    match skipWs s with
    | [] => .error ()
    | c :: cs =>
      if c = '"' then do
        let (body, r) ← parseStrBody cs.length cs
        .ok (.str body, r)
      else if c = '[' then
        match skipWs cs with
        | ']' :: r => .ok (.arr [], r)
        | _ => do
          let (items, r) ← parseItems f cs
          .ok (.arr items, r)
      else if c = lcurly then
        match skipWs cs with
        | d :: r =>
          if d = rcurly then .ok (.obj [], r)
          else do
            let (fields, r') ← parseFields f cs
            .ok (.obj fields, r')
        | [] => .error ()
      else if c = 't' then
        match cs with
        | 'r' :: 'u' :: 'e' :: r => .ok (.bool true, r)
        | _ => .error ()
      else if c = 'f' then
        match cs with
        | 'a' :: 'l' :: 's' :: 'e' :: r => .ok (.bool false, r)
        | _ => .error ()
      else if c = 'n' then
        match cs with
        | 'u' :: 'l' :: 'l' :: r => .ok (.null, r)
        | _ => .error ()
      else if c = '-' ∨ c.isDigit then do
        let (lex, r) ← parseNumLex (c :: cs)
        .ok (.num lex, r)
      else .error ()

/-- Comma-separated JSON array items up to the closing bracket. -/
def parseItems : Nat → Str → Except Unit (List JsonVal × Str)
  | 0, _ => .error ()
  | f + 1, s => do
    let (v, r) ← parseVal f s
    match skipWs r with
    | ',' :: r' => do
      let (vs, r'') ← parseItems f r'
      .ok (v :: vs, r'')
    | ']' :: r' => .ok ([v], r')
    | _ => .error ()

/-- Comma-separated JSON object fields up to the closing brace. -/
def parseFields : Nat → Str → Except Unit (List (Str × JsonVal) × Str)
  | 0, _ => .error ()
  | f + 1, s =>
    match skipWs s with
    | '"' :: r => do
      let (k, r1) ← parseStrBody r.length r
      match skipWs r1 with
      | ':' :: r2 => do
        let (v, r3) ← parseVal f r2
        match skipWs r3 with
        | ',' :: r4 => do
          let (fs, r5) ← parseFields f r4
          .ok ((k, v) :: fs, r5)
        | d :: r4 =>
          if d = rcurly then .ok ([(k, v)], r4) else .error ()
        | [] => .error ()
      | _ => .error ()
    | _ => .error ()

end

/-- Model of Python `json.loads`: parse one JSON document with nothing but
whitespace after it.  `.error` models `json.JSONDecodeError`. -/
def json_loads (s : Str) : Except Unit JsonVal := do
  let (v, r) ← parseVal (s.length + 1) s
  if skipWs r = [] then .ok v else .error ()

namespace SegVLM

/-- Default configs of `SegVLM.__init__` (lines 116-120). -/
def defaultConfigs : CfgDict :=
  [("img_size".data, .nat 640), ("label_mode".data, .str "1".data), ("alpha".data, .rat 0.05)]

/-- Configs attribute as set by `SegVLM.__init__` (lines 115-122): with a
caller-supplied dict the attribute is reassigned to the return value of
`dict.update`, which is `None`. -/
def initConfigs (configs : Option CfgDict) : Option CfgDict :=
  match configs with
  | none => some defaultConfigs
  | some c => (pyDictUpdate defaultConfigs c).2

/-- Translation of `SegVLM.plan` (lines 127-171) from the point where its
inputs are determined: `masks` is the segmentor output, `plan_raw` the VLM
response.  Image resizing and mask drawing only feed the external model call,
but the config reads they perform are kept because they can raise. -/
def plan {α : Type} (cfg : Option CfgDict) (masks : List α) (plan_raw : Str) :
    Except PyErr (PlanResult α) := do
  let _ ← pyContains cfg "img_size".data
  let _ ← pyGetItem cfg "label_mode".data
  let _ ← pyGetItem cfg "alpha".data
  match extract_plans_and_regions plan_raw masks with
  | none =>
    pure { success := false, error_message := some "Invalid or no code is generated.".data,
           plan_raw := some plan_raw, masks := none, plan_code := none }
  | some (plan_code, filtered_masks) =>
    pure { success := true, error_message := none, plan_raw := some plan_raw,
           masks := some filtered_masks, plan_code := some plan_code }

end SegVLM

namespace DetVLM

/-- Default configs of `DetVLM.__init__` (lines 209-213). -/
def defaultConfigs : CfgDict :=
  [("img_size".data, .nat 640), ("label_mode".data, .str "1".data), ("alpha".data, .rat 0.75)]

/-- Configs attribute as set by `DetVLM.__init__` (lines 208-215). -/
def initConfigs (configs : Option CfgDict) : Option CfgDict :=
  match configs with
  | none => some defaultConfigs
  | some c => (pyDictUpdate defaultConfigs c).2

/-- Translation of `DetVLM.plan` (lines 219-284): `detected_objects` is the
detector output, `segment` the segmentor oracle (one mask per bbox group
passed to `segment_by_bboxes`, line 262 passes `[obj['bbox']]` groups),
`plan_raw` the VLM response. -/
def plan {α : Type} (cfg : Option CfgDict) (detected_objects : List Detection)
    (segment : List ℚ → α) (plan_raw : Str) : Except PyErr (PlanResult α) := do
  let _ ← pyContains cfg "img_size".data
  if detected_objects.length = 0 then
    pure { success := false, error_message := some "No objects were detected in the image.".data,
           plan_raw := none, masks := none, plan_code := none }
  else do
    let _ ← pyGetItem cfg "alpha".data
    let masks := detected_objects.map (fun obj => segment obj.bbox)
    match extract_plans_and_regions plan_raw masks with
    | none =>
      pure { success := false, error_message := some "Invalid or no code is generated.".data,
             plan_raw := some plan_raw, masks := none, plan_code := none }
    | some (plan_code, filtered_masks) =>
      pure { success := true, error_message := none, plan_raw := some plan_raw,
             masks := some filtered_masks, plan_code := some plan_code }

end DetVLM

namespace DetLLM

/-- Default configs of `DetLLM.__init__` (lines 320-323). -/
def defaultConfigs : CfgDict :=
  [("img_size".data, .nat 640), ("include_coordinates".data, .bool true)]

/-- Configs attribute as set by `DetLLM.__init__` (lines 319-326). -/
def initConfigs (configs : Option CfgDict) : Option CfgDict :=
  match configs with
  | none => some defaultConfigs
  | some c => (pyDictUpdate defaultConfigs c).2

/-- Translation of `DetLLM.plan` (lines 377-428): `detected_objects` is the
detector output, `segment` the segmentor oracle (line 417 passes
`[obj['bbox']]` groups), `plan_raw` the LLM response.  The textualized
detection list only feeds the prompt of the external model call and is not
modelled, but the config read it needs (line 409) is kept.  After
`extract_plans_and_regions` the method builds a success result directly: no
check of `plan_code` is performed, unlike the other strategies. -/
def plan {α : Type} (cfg : Option CfgDict) (detected_objects : List Detection)
    (segment : List ℚ → α) (plan_raw : Str) : Except PyErr (PlanResult α) := do
  let _ ← pyContains cfg "img_size".data
  if detected_objects.length = 0 then
    pure { success := false, error_message := some "No objects were detected in the image.".data,
           plan_raw := none, masks := none, plan_code := none }
  else do
    let _ ← pyGetItem cfg "include_coordinates".data
    let masks := detected_objects.map (fun obj => segment obj.bbox)
    let ex := extract_plans_and_regions plan_raw masks
    pure { success := true, error_message := none, plan_raw := some plan_raw,
           masks := ex.map (fun p => p.2), plan_code := ex.map (fun p => p.1) }

end DetLLM

namespace VLMSeg

/-- Default configs of `VLMSeg.__init__` (lines 461-465). -/
def defaultConfigs : CfgDict :=
  [("img_size".data, .nat 640), ("label_mode".data, .str "1".data), ("alpha".data, .rat 0.75)]

/-- Configs attribute as set by `VLMSeg.__init__` (lines 460-467). -/
def initConfigs (configs : Option CfgDict) : Option CfgDict :=
  match configs with
  | none => some defaultConfigs
  | some c => (pyDictUpdate defaultConfigs c).2

/-- Translation of `VLMSeg.extract_objects_of_interest_from_vlm_response`
(lines 471-487).  `.ok none` models the Python return `(None, None)`; the
`json.loads` call of line 480 can raise, and nothing in the method catches
the exception. -/
def extract_objects_of_interest_from_vlm_response (plan_raw : Str) :
    Except PyErr (Option (Str × JsonVal)) :=
  match findPythonBlocks plan_raw, findJsonBlocks plan_raw with
  | [], _ => .ok none
  | _ :: _, [] => .ok none
  | code_block :: _, json_block :: _ =>
    match json_loads json_block with
    | .error _ => .error .jsonDecodeError
    | .ok v => .ok (some (code_block, v))

/-- Translation of the best-box loop (lines 524-528): fold over the detector
output keeping, per name, the detection with the strictly highest score. -/
def bestBoxes (detected_objects : List Detection) : List (Str × Detection) :=
  detected_objects.foldl
    (fun bb det =>
      match alGet bb det.box_name with
      | none => dictInsert det.box_name det bb
      | some best => if best.score < det.score then dictInsert det.box_name det bb else bb)
    []

/-- Translation of the name-substitution loop (lines 566-568): replace each
requested name, in list order, by its dense region reference
`f"regions[str(index)]"`. -/
def substituteNames (objects_of_interest : List Str) (plan_code : Str) : Str :=
  objects_of_interest.enum.foldl (fun cb p => pyReplace cb p.2 (regionRef p.1)) plan_code

/-- Python `obj["name"]` on one parsed JSON element (line 512): subscripting
anything but an object raises a `TypeError`, a missing key raises a
`KeyError`.  The value is later handed to `str.replace`, which needs a
string; a non-string value is rejected here as the `TypeError` it would
raise there. -/
def getName (v : JsonVal) : Except PyErr Str :=
  match v with
  | .obj fields =>
    match alGet fields "name".data with
    | some (.str s) => .ok s
    | some _ => .error (.typeError "replace argument must be str".data)
    | none => .error (.keyError "name".data)
  | _ => .error (.typeError "element is not subscriptable by a string".data)

/-- Python `[obj["name"] for obj in object_names_and_aliases]` (line 512):
iterating anything but a list makes the element subscripts fail with a
`TypeError`. -/
def namesOf (onaa : JsonVal) : Except PyErr (List Str) :=
  match onaa with
  | .arr items => items.mapM getName
  | _ => .error (.typeError "object is not iterable or yields bad elements".data)

/-- Translation of lines 512-578 of `VLMSeg.plan` - the name-resolution and
binding part - parameterised by the detector and segmentor oracles.  In the
method this code is unreachable (the line 504 check raises first); it is
modelled as its own function so that the resolution logic can be examined.
The missing-objects message drops the joined name list (CPython iterates a
set there, whose order is unspecified). -/
def resolveAndBind {α : Type} (cfg : Option CfgDict)
    (plan_code : Option Str) (object_names_and_aliases : Option JsonVal)
    (detect : List Str → List Detection) (segment : Detection → α)
    (plan_raw : Str) : Except PyErr (PlanResult α) := do
  let objects_of_interest ← match object_names_and_aliases with
    | none => Except.error (.typeError "NoneType object is not iterable".data)
    | some v => namesOf v
  let detected_objects := detect objects_of_interest
  let best_boxes := bestBoxes detected_objects
  let missing_objects := (objects_of_interest.filter
    (fun n => (alGet best_boxes n).isNone)).dedup
  if missing_objects ≠ [] then
    pure { success := false,
           error_message := some "Missing objects that were not detected or had no best box: ".data,
           plan_raw := none, masks := none, plan_code := none }
  else do
    let _boxes_of_interest ← objects_of_interest.mapM
      (fun n => match alGet best_boxes n with
        | some d => Except.ok d
        | none => Except.error (PyErr.keyError n))
    let _ ← pyGetItem cfg "alpha".data
    -- line 555: masks = segment_by_bboxes(image, [[bbox] for bbox in detected_objects]);
    -- the loop variable ranges over the raw detection records, not their bbox
    -- fields, and over detected_objects, not boxes_of_interest
    let masks := detected_objects.map segment
    let pc ← match plan_code with
      | none => Except.error (PyErr.attributeError "NoneType object has no attribute replace".data)
      | some pc => Except.ok pc
    let plan_code' := substituteNames objects_of_interest pc
    pure { success := true, error_message := none, plan_raw := some plan_raw,
           masks := some masks, plan_code := some plan_code' }

/-- Translation of `VLMSeg.plan` (lines 489-578).  After the response is
parsed, line 504 tests `objects_of_interest is None`, but that local is first
assigned at line 512: evaluating the name raises `UnboundLocalError`.  The
read of the never-assigned local is modelled as the error it raises; the
remainder of the method (lines 505-578) is translated as written although it
cannot run. -/
def plan {α : Type} (cfg : Option CfgDict) (plan_raw : Str)
    (detect : List Str → List Detection) (segment : Detection → α) :
    Except PyErr (PlanResult α) := do
  let _ ← pyContains cfg "img_size".data
  let eo ← extract_objects_of_interest_from_vlm_response plan_raw
  let is_none : Bool ← Except.error (PyErr.unboundLocal "objects_of_interest".data)
  if is_none then
    pure { success := false,
           error_message := some "Could not extract objects of intereset.".data,
           plan_raw := some plan_raw, masks := none, plan_code := none }
  else
    resolveAndBind cfg (eo.map (fun p => p.1)) (eo.map (fun p => p.2)) detect segment plan_raw

end VLMSeg


section DigitLemmas

theorem digitChar_isDigit : ∀ d, d < 10 → (digitChar d).isDigit = true := by decide

theorem digitVal_digitChar : ∀ d, d < 10 → digitVal (digitChar d) = d := by decide

theorem natDigitsAux_irrel : ∀ n, ∀ f g acc, n < f → n < g →
    natDigitsAux f n acc = natDigitsAux g n acc := by
  intro n
  induction n using Nat.strong_induction_on with
  | _ n ih =>
    intro f g acc hf hg
    match f, g with
    | f' + 1, g' + 1 =>
      by_cases h0 : n = 0
      · simp [natDigitsAux, h0]
      · have hdiv : n / 10 < n := Nat.div_lt_self (Nat.pos_of_ne_zero h0) (by norm_num)
        have hf' : n / 10 < f' := lt_of_lt_of_le hdiv (Nat.lt_succ_iff.mp hf)
        have hg' : n / 10 < g' := lt_of_lt_of_le hdiv (Nat.lt_succ_iff.mp hg)
        simp only [natDigitsAux, if_neg h0]
        exact ih (n / 10) hdiv f' g' _ hf' hg'

theorem natDigitsAux_acc : ∀ n, ∀ f acc, n < f →
    natDigitsAux f n acc = natDigitsAux f n [] ++ acc := by
  intro n
  induction n using Nat.strong_induction_on with
  | _ n ih =>
    intro f acc hf
    match f with
    | f' + 1 =>
      by_cases h0 : n = 0
      · simp [natDigitsAux, h0]
      · have hdiv : n / 10 < n := Nat.div_lt_self (Nat.pos_of_ne_zero h0) (by norm_num)
        have hf' : n / 10 < f' := lt_of_lt_of_le hdiv (Nat.lt_succ_iff.mp hf)
        simp only [natDigitsAux, if_neg h0]
        rw [ih (n / 10) hdiv f' _ hf', ih (n / 10) hdiv f' [digitChar (n % 10)] hf',
          List.append_assoc]
        rfl

theorem natDigits_lt_ten {n : Nat} (h : n < 10) : natDigits n = [digitChar n] := by
  by_cases h0 : n = 0
  · subst h0; rfl
  · have h10 : n / 10 = 0 := Nat.div_eq_of_lt h
    have hmod : n % 10 = n := Nat.mod_eq_of_lt h
    simp only [natDigits, if_neg h0, natDigitsAux, h10, hmod]
    match n, h0 with
    | m + 1, _ => simp [natDigitsAux]

theorem natDigits_ge_ten {n : Nat} (h : 10 ≤ n) :
    natDigits n = natDigits (n / 10) ++ [digitChar (n % 10)] := by
  have h0 : n ≠ 0 := by omega
  have hq0 : n / 10 ≠ 0 := Nat.div_ne_zero_iff (by norm_num) |>.mpr h
  have hdiv : n / 10 < n := Nat.div_lt_self (Nat.pos_of_ne_zero h0) (by norm_num)
  calc natDigits n = natDigitsAux (n + 1) n [] := by simp [natDigits, h0]
    _ = natDigitsAux n (n / 10) [digitChar (n % 10)] := by
        simp only [natDigitsAux, if_neg h0]
    _ = natDigitsAux n (n / 10) [] ++ [digitChar (n % 10)] :=
        natDigitsAux_acc (n / 10) n _ hdiv
    _ = natDigitsAux (n / 10 + 1) (n / 10) [] ++ [digitChar (n % 10)] := by
        rw [natDigitsAux_irrel (n / 10) n (n / 10 + 1) [] hdiv (Nat.lt_succ_self _)]
    _ = natDigits (n / 10) ++ [digitChar (n % 10)] := by simp [natDigits, hq0]

theorem natOfDigits_append_singleton (xs : Str) (c : Char) :
    natOfDigits (xs ++ [c]) = 10 * natOfDigits xs + digitVal c := by
  simp [natOfDigits, List.foldl_append]

theorem natOfDigits_natDigits : ∀ n, natOfDigits (natDigits n) = n := by
  intro n
  induction n using Nat.strong_induction_on with
  | _ n ih =>
    by_cases h : n < 10
    · rw [natDigits_lt_ten h]
      have : natOfDigits [digitChar n] = digitVal (digitChar n) := by
        simp [natOfDigits]
      rw [this, digitVal_digitChar n h]
    · push_neg at h
      have hdiv : n / 10 < n := Nat.div_lt_self (by omega) (by norm_num)
      rw [natDigits_ge_ten h, natOfDigits_append_singleton, ih (n / 10) hdiv,
        digitVal_digitChar (n % 10) (Nat.mod_lt n (by norm_num))]
      omega

theorem natDigits_inj {m n : Nat} (h : natDigits m = natDigits n) : m = n := by
  have := natOfDigits_natDigits m
  rw [h, natOfDigits_natDigits] at this
  exact this.symm

theorem natDigits_ne_nil (n : Nat) : natDigits n ≠ [] := by
  by_cases h : n < 10
  · rw [natDigits_lt_ten h]; simp
  · rw [natDigits_ge_ten (by omega)]; simp

theorem natDigits_isDigit : ∀ n, ∀ c ∈ natDigits n, c.isDigit = true := by
  intro n
  induction n using Nat.strong_induction_on with
  | _ n ih =>
    intro c hc
    by_cases h : n < 10
    · rw [natDigits_lt_ten h] at hc
      simp at hc
      subst hc
      exact digitChar_isDigit n h
    · rw [natDigits_ge_ten (by omega)] at hc
      rcases List.mem_append.mp hc with h1 | h1
      · exact ih (n / 10) (Nat.div_lt_self (by omega) (by norm_num)) c h1
      · simp at h1
        subst h1
        exact digitChar_isDigit _ (Nat.mod_lt n (by norm_num))

end DigitLemmas

section TakeWhileHelpers

theorem takeWhile_append_all {p : Char → Bool} (xs : Str) (y : Char) (ys : Str)
    (hx : ∀ c ∈ xs, p c = true) (hy : p y = false) :
    (xs ++ y :: ys).takeWhile p = xs ∧ (xs ++ y :: ys).dropWhile p = y :: ys := by
  induction xs with
  | nil => simp [List.takeWhile_cons, List.dropWhile_cons, hy]
  | cons c cs ih =>
    have hc : p c = true := hx c (by simp)
    have ih' := ih (fun d hd => hx d (by simp [hd]))
    simp [List.takeWhile_cons, List.dropWhile_cons, hc, ih'.1, ih'.2]

end TakeWhileHelpers

section TokenAtLemmas

theorem rbracket_not_digit : (']').isDigit = false := by decide

theorem regionsOpen_length : regionsOpen.length = 8 := rfl

theorem tokenAt_eq_some_iff {s ds r : Str} :
    tokenAt s = some (ds, r) ↔
      ds ≠ [] ∧ (∀ c ∈ ds, c.isDigit = true) ∧ s = regionsOpen ++ ds ++ ']' :: r := by
  constructor
  · intro h
    unfold tokenAt at h
    by_cases hp : regionsOpen.isPrefixOf s = true
    · simp only [hp, if_true] at h
      obtain ⟨t', ht⟩ := List.isPrefixOf_iff_prefix.mp hp
      have hdrop : s.drop 8 = t' := by
        rw [← ht, ← regionsOpen_length, List.drop_left]
      rw [hdrop] at h
      split at h
      next r' heq =>
        split at h
        next => exact absurd h (by simp)
        next hds =>
          cases h
          refine ⟨hds, ?_, ?_⟩
          · intro c hc
            exact List.mem_takeWhile_imp hc
          · rw [← ht]
            conv_lhs => rw [← List.takeWhile_append_dropWhile (p := Char.isDigit) (l := t'),
              heq]
            exact (List.append_assoc _ _ _).symm
      next => exact absurd h (by simp)
    · simp only [Bool.not_eq_true] at hp
      simp [hp] at h
  · rintro ⟨hne, hdig, rfl⟩
    rw [List.append_assoc]
    have hpre : regionsOpen.isPrefixOf (regionsOpen ++ (ds ++ ']' :: r)) = true :=
      List.isPrefixOf_iff_prefix.mpr (List.prefix_append _ _)
    have hdrop : (regionsOpen ++ (ds ++ ']' :: r)).drop 8 = ds ++ ']' :: r := by
      rw [← regionsOpen_length, List.drop_left]
    have htw := takeWhile_append_all (p := Char.isDigit) ds ']' r hdig rbracket_not_digit
    unfold tokenAt
    rw [if_pos hpre]
    simp only [hdrop, htw.1, htw.2]
    simp [hne]

theorem tokenAt_some_length {s ds r : Str} (h : tokenAt s = some (ds, r)) :
    r.length + 10 ≤ s.length := by
  obtain ⟨hne, _, rfl⟩ := tokenAt_eq_some_iff.mp h
  have h1 : 1 ≤ ds.length := List.length_pos.mpr hne
  simp [List.length_append, regionsOpen_length]
  omega

theorem tokenAt_regionRef_append (n : Nat) (t : Str) :
    tokenAt (regionRef n ++ t) = some (natDigits n, t) := by
  apply tokenAt_eq_some_iff.mpr
  refine ⟨natDigits_ne_nil n, natDigits_isDigit n, ?_⟩
  simp [regionRef, List.append_assoc]

theorem tokenAt_extend {t u ds r : Str} (h : tokenAt t = some (ds, r)) :
    tokenAt (t ++ u) = some (ds, r ++ u) := by
  obtain ⟨hne, hdig, rfl⟩ := tokenAt_eq_some_iff.mp h
  apply tokenAt_eq_some_iff.mpr
  exact ⟨hne, hdig, by simp⟩

theorem tokenAt_of_regionRef_prefix {a : Nat} {s : Str} (h : regionRef a <+: s) :
    ∃ t, s = regionRef a ++ t ∧ tokenAt s = some (natDigits a, t) := by
  obtain ⟨t, rfl⟩ := h
  exact ⟨t, rfl, tokenAt_regionRef_append a t⟩

theorem tokenAt_nil : tokenAt [] = none := rfl

end TokenAtLemmas

section ScanLemmas

theorem scanRawF_nil : ∀ f, scanRawF f [] = [] := by
  intro f
  cases f <;> rfl

theorem scanRawF_irrel : ∀ f, ∀ g s, s.length ≤ f → s.length ≤ g →
    scanRawF f s = scanRawF g s := by
  intro f
  induction f using Nat.strong_induction_on with
  | _ f ih =>
    intro g s hf hg
    match s with
    | [] => rw [scanRawF_nil, scanRawF_nil]
    | c :: cs =>
      match f, g, hf, hg with
      | f' + 1, g' + 1, hf, hg =>
        simp only [List.length_cons] at hf hg
        cases htok : tokenAt (c :: cs) with
        | some p =>
          obtain ⟨ds, rest⟩ := p
          have hlen := tokenAt_some_length htok
          simp only [List.length_cons] at hlen
          simp only [scanRawF, htok]
          rw [ih f' (Nat.lt_succ_self f') g' rest (by omega) (by omega)]
        | none =>
          simp only [scanRawF, htok]
          exact ih f' (Nat.lt_succ_self f') g' cs (by omega) (by omega)

theorem scanRaw_nil : scanRaw [] = [] := rfl

theorem scanRaw_match {s ds rest : Str} (h : tokenAt s = some (ds, rest)) :
    scanRaw s = ds :: scanRaw rest := by
  have hlen := tokenAt_some_length h
  match s with
  | [] => rw [tokenAt_nil] at h; exact absurd h (by simp)
  | c :: cs =>
    unfold scanRaw
    simp only [List.length_cons, scanRawF, h]
    congr 1
    simp only [List.length_cons] at hlen
    exact scanRawF_irrel cs.length rest.length rest (by omega) (le_refl _)

theorem scanRaw_nomatch {c : Char} {cs : Str} (h : tokenAt (c :: cs) = none) :
    scanRaw (c :: cs) = scanRaw cs := by
  unfold scanRaw
  simp only [List.length_cons, scanRawF, h]

end ScanLemmas

section ReplaceLemmas

theorem replaceF_nil (pat sub : Str) : ∀ f, replaceF pat sub f [] = [] := by
  intro f
  cases f <;> rfl

theorem replaceF_irrel {pat : Str} (hpat : pat ≠ []) (sub : Str) : ∀ f, ∀ g s,
    s.length ≤ f → s.length ≤ g → replaceF pat sub f s = replaceF pat sub g s := by
  intro f
  induction f using Nat.strong_induction_on with
  | _ f ih =>
    intro g s hf hg
    match s with
    | [] => rw [replaceF_nil, replaceF_nil]
    | c :: cs =>
      match f, g, hf, hg with
      | f' + 1, g' + 1, hf, hg =>
        have hplen : 1 ≤ pat.length := List.length_pos.mpr hpat
        simp only [List.length_cons] at hf hg
        by_cases hpre : pat.isPrefixOf (c :: cs) = true
        · simp only [replaceF, hpre, if_true]
          congr 1
          have hd : ((c :: cs).drop pat.length).length = cs.length + 1 - pat.length := by
            simp [List.length_drop]
          exact ih f' (Nat.lt_succ_self f') g' _ (by omega) (by omega)
        · simp only [replaceF, hpre]
          simp only [Bool.false_eq_true, if_false]
          congr 1
          exact ih f' (Nat.lt_succ_self f') g' cs (by omega) (by omega)

theorem pyReplace_nil {pat : Str} (sub : Str) (hpat : pat ≠ []) :
    pyReplace [] pat sub = [] := by
  simp [pyReplace, hpat, replaceF_nil]

theorem pyReplace_match {pat sub s : Str} (hpat : pat ≠ []) (h : pat <+: s) :
    pyReplace s pat sub = sub ++ pyReplace (s.drop pat.length) pat sub := by
  match s with
  | [] =>
    obtain ⟨t, ht⟩ := h
    simp at ht
    exact absurd ht.1 hpat
  | c :: cs =>
    have hpre : pat.isPrefixOf (c :: cs) = true := List.isPrefixOf_iff_prefix.mpr h
    have hplen : 1 ≤ pat.length := List.length_pos.mpr hpat
    simp only [pyReplace, if_neg hpat, List.length_cons]
    simp only [replaceF, hpre, if_true]
    congr 1
    have hd : ((c :: cs).drop pat.length).length = cs.length + 1 - pat.length := by
      simp [List.length_drop]
    exact replaceF_irrel hpat sub cs.length ((c :: cs).drop pat.length).length _
      (by omega) (le_refl _)

theorem pyReplace_nomatch {pat sub : Str} {c : Char} {cs : Str} (hpat : pat ≠ [])
    (h : ¬ pat <+: (c :: cs)) :
    pyReplace (c :: cs) pat sub = c :: pyReplace cs pat sub := by
  have hpre : pat.isPrefixOf (c :: cs) = false := by
    by_contra hx
    simp only [Bool.not_eq_false] at hx
    exact h (List.isPrefixOf_iff_prefix.mp hx)
  simp only [pyReplace, if_neg hpat, List.length_cons]
  simp only [replaceF, hpre]
  simp only [Bool.false_eq_true, if_false]

end ReplaceLemmas

section TokenFreeLemmas

/-- Strings containing no match of the reference pattern at any position:
the literal stretches between matches that the scanner skips over. -/
def TokenFree (l : Str) : Prop := ∀ v, v <:+ l → tokenAt v = none

theorem tokenFree_nil : TokenFree [] := by
  intro v hv
  rw [List.suffix_nil.mp hv]
  rfl

theorem tokenFree_of_cons {c : Char} {l : Str} (h : TokenFree (c :: l)) : TokenFree l :=
  fun v hv => h v (hv.trans (List.suffix_cons c l))

theorem regionsOpen_cons : regionsOpen = 'r' :: "egions[".data := rfl

theorem egions_not_r : ∀ y ∈ ("egions[".data : Str), y ≠ 'r' := by decide

theorem regionRef_cons (a : Nat) :
    regionRef a = 'r' :: (("egions[".data ++ natDigits a) ++ [']']) := by
  rw [regionRef, regionsOpen_cons]
  simp

theorem regionRef_ne_nil (a : Nat) : regionRef a ≠ [] := by
  rw [regionRef_cons]
  simp

/-- A nonempty string with no pattern match at its head, followed by either
nothing or a token start, still has no pattern match at its head: a match
cannot straddle the boundary, because past its first character the pattern
text has no room for the character r that a token start would put there. -/
theorem tokenAt_lit_append {v rest : Str} (hv : tokenAt v = none) (hne : v ≠ [])
    (hr : rest = [] ∨ ∃ t, rest = 'r' :: t) :
    tokenAt (v ++ rest) = none := by
  by_contra hx
  obtain ⟨p, hp⟩ := Option.ne_none_iff_exists'.mp hx
  obtain ⟨ds, r⟩ := p
  obtain ⟨hds, hdig, heq⟩ := tokenAt_eq_some_iff.mp hp
  have heq' : v ++ rest = ((regionsOpen ++ ds) ++ [']']) ++ r := by
    rw [heq]; simp
  rcases List.append_eq_append_iff.mp heq' with ⟨w, hP, hrest⟩ | ⟨w, hv', hr'⟩
  · match w with
    | [] =>
      simp only [List.append_nil] at hP
      have hsome : tokenAt v = some (ds, []) := by
        apply tokenAt_eq_some_iff.mpr
        exact ⟨hds, hdig, hP.symm⟩
      rw [hsome] at hv
      exact absurd hv (by simp)
    | x :: w' =>
      have hxr : x = 'r' := by
        rcases hr with h0 | ⟨t, ht⟩
        · rw [h0] at hrest
          exact absurd hrest (by simp)
        · rw [ht] at hrest
          injection hrest with h1 _
          exact h1.symm
      subst hxr
      match v, hne with
      | v0 :: v1, _ =>
        have hP' : ((regionsOpen ++ ds) ++ [']']) = v0 :: (v1 ++ 'r' :: w') := by
          rw [hP]; simp
        have hmem : 'r' ∈ ("egions[".data ++ ds) ++ [']'] := by
          have htail : ("egions[".data ++ ds) ++ [']'] = v1 ++ 'r' :: w' := by
            have : (regionsOpen ++ ds) ++ [']']
                = 'r' :: (("egions[".data ++ ds) ++ [']']) := by
              rw [regionsOpen_cons]; simp
            rw [this] at hP'
            exact (List.cons.injEq _ _ _ _ ▸ hP').2
          rw [htail]
          simp
        rcases List.mem_append.mp hmem with h1 | h1
        · rcases List.mem_append.mp h1 with h2 | h2
          · exact egions_not_r 'r' h2 rfl
          · have := hdig 'r' h2
            simp at this
        · simp at h1
  · have hsome : tokenAt v = some (ds, w) := by
      apply tokenAt_eq_some_iff.mpr
      refine ⟨hds, hdig, ?_⟩
      rw [hv']
      simp
    rw [hsome] at hv
    exact absurd hv (by simp)

theorem tokenAt_tokenFree_append {l rest : Str} (hl : TokenFree l) (hne : l ≠ [])
    (hr : rest = [] ∨ ∃ t, rest = 'r' :: t) :
    tokenAt (l ++ rest) = none :=
  tokenAt_lit_append (hl l (List.suffix_refl _)) hne hr

theorem scanRaw_lit_append {l rest : Str} (hl : TokenFree l)
    (hr : rest = [] ∨ ∃ t, rest = 'r' :: t) :
    scanRaw (l ++ rest) = scanRaw rest := by
  induction l with
  | nil => simp
  | cons c l' ih =>
    have htok : tokenAt ((c :: l') ++ rest) = none :=
      tokenAt_tokenFree_append hl (by simp) hr
    rw [List.cons_append] at htok
    rw [List.cons_append, scanRaw_nomatch htok]
    exact ih (tokenFree_of_cons hl)

theorem pyReplace_append_left {pat sub l rest : Str} (hpat : pat ≠ [])
    (h : ∀ v, v <:+ l → v ≠ [] → ¬ pat <+: (v ++ rest)) :
    pyReplace (l ++ rest) pat sub = l ++ pyReplace rest pat sub := by
  induction l with
  | nil => simp
  | cons c l' ih =>
    have h1 : ¬ pat <+: (c :: (l' ++ rest)) := by
      have := h (c :: l') (List.suffix_refl _) (by simp)
      rwa [List.cons_append] at this
    rw [List.cons_append, pyReplace_nomatch hpat h1,
      ih (fun v hv hne => h v (hv.trans (List.suffix_cons _ _)) hne)]
    rfl

theorem pyReplace_lit_append {a : Nat} {sub l rest : Str} (hl : TokenFree l)
    (hr : rest = [] ∨ ∃ t, rest = 'r' :: t) :
    pyReplace (l ++ rest) (regionRef a) sub = l ++ pyReplace rest (regionRef a) sub := by
  apply pyReplace_append_left (regionRef_ne_nil a)
  intro v hv hne hp
  obtain ⟨t, ht, htok⟩ := tokenAt_of_regionRef_prefix hp
  have hnone : tokenAt (v ++ rest) = none :=
    tokenAt_lit_append (hl v hv) hne hr
  rw [htok] at hnone
  exact absurd hnone (by simp)

theorem regionRef_proper_suffix_head {n : Nat} {v : Str} (hv : v <:+ regionRef n)
    (hne : v ≠ []) (hproper : v ≠ regionRef n) : ∃ x v', v = x :: v' ∧ x ≠ 'r' := by
  rw [regionRef_cons] at hv hproper
  rcases List.suffix_cons_iff.mp hv with h | h
  · exact absurd h hproper
  · match v, hne with
    | x :: v', _ =>
      refine ⟨x, v', rfl, ?_⟩
      have hx : x ∈ ("egions[".data ++ natDigits n) ++ [']'] := h.subset (by simp)
      intro hxr
      subst hxr
      rcases List.mem_append.mp hx with h1 | h1
      · rcases List.mem_append.mp h1 with h2 | h2
        · exact egions_not_r 'r' h2 rfl
        · have := natDigits_isDigit n 'r' h2
          simp at this
      · simp at h1

theorem pyReplace_token_match {n : Nat} {rest sub : Str} :
    pyReplace (regionRef n ++ rest) (regionRef n) sub
      = sub ++ pyReplace rest (regionRef n) sub := by
  rw [pyReplace_match (regionRef_ne_nil n) (List.prefix_append _ _), List.drop_left]

theorem pyReplace_token_skip {a n : Nat} {rest sub : Str} (hne : a ≠ n) :
    pyReplace (regionRef n ++ rest) (regionRef a) sub
      = regionRef n ++ pyReplace rest (regionRef a) sub := by
  apply pyReplace_append_left (regionRef_ne_nil a)
  intro v hv hvne hp
  by_cases hvr : v = regionRef n
  · subst hvr
    obtain ⟨t, ht, htok⟩ := tokenAt_of_regionRef_prefix hp
    rw [tokenAt_regionRef_append n rest] at htok
    have := (Option.some.injEq _ _ ▸ htok.symm)
    have hd : natDigits a = natDigits n := (Prod.mk.injEq _ _ _ _ ▸ this).1
    exact hne (natDigits_inj hd)
  · obtain ⟨x, v', hxv, hxr⟩ := regionRef_proper_suffix_head hv hvne hvr
    subst hxv
    obtain ⟨t, ht, _⟩ := tokenAt_of_regionRef_prefix hp
    rw [regionRef_cons] at ht
    simp only [List.cons_append] at ht
    injection ht with h1 _
    exact hxr h1

end TokenFreeLemmas

section ChunkLemmas

/-- Rendering of a decomposed code fragment: an alternation of canonical
region references and token-free literal stretches, after a leading literal. -/
def joinChunks : List (Nat × Str) → Str
  | [] => []
  | (n, l') :: ps => regionRef n ++ (l' ++ joinChunks ps)

def renderChunks (l : Str) (ps : List (Nat × Str)) : Str := l ++ joinChunks ps

theorem joinChunks_shape (ps : List (Nat × Str)) :
    joinChunks ps = [] ∨ ∃ t, joinChunks ps = 'r' :: t := by
  cases ps with
  | nil => exact Or.inl rfl
  | cons p ps =>
    obtain ⟨n, l'⟩ := p
    right
    refine ⟨("egions[".data ++ natDigits n ++ [']']) ++ (l' ++ joinChunks ps), ?_⟩
    show regionRef n ++ (l' ++ joinChunks ps) = _
    rw [regionRef_cons]
    simp

theorem scanRaw_joinChunks : ∀ ps : List (Nat × Str), (∀ p ∈ ps, TokenFree p.2) →
    scanRaw (joinChunks ps) = ps.map (fun p => natDigits p.1) := by
  intro ps
  induction ps with
  | nil => intro _; exact scanRaw_nil
  | cons p ps ih =>
    intro h
    obtain ⟨n, l'⟩ := p
    show scanRaw (regionRef n ++ (l' ++ joinChunks ps)) = _
    rw [scanRaw_match (tokenAt_regionRef_append n _),
      scanRaw_lit_append (h (n, l') (by simp)) (joinChunks_shape ps),
      ih (fun q hq => h q (by simp [hq]))]
    rfl

theorem scanRaw_renderChunks {l : Str} {ps : List (Nat × Str)} (hl : TokenFree l)
    (hps : ∀ p ∈ ps, TokenFree p.2) :
    scanRaw (renderChunks l ps) = ps.map (fun p => natDigits p.1) := by
  rw [renderChunks, scanRaw_lit_append hl (joinChunks_shape ps), scanRaw_joinChunks ps hps]

theorem pyReplace_joinChunks {a b : Nat} : ∀ ps : List (Nat × Str),
    (∀ p ∈ ps, TokenFree p.2) →
    pyReplace (joinChunks ps) (regionRef a) (regionRef b)
      = joinChunks (ps.map (fun p => (if p.1 = a then b else p.1, p.2))) := by
  intro ps
  induction ps with
  | nil => intro _; exact pyReplace_nil _ (regionRef_ne_nil a)
  | cons p ps ih =>
    intro h
    obtain ⟨n, l'⟩ := p
    have hlit : TokenFree l' := h (n, l') (by simp)
    have hrest := joinChunks_shape ps
    have ih' := ih (fun q hq => h q (by simp [hq]))
    by_cases hn : n = a
    · subst hn
      show pyReplace (regionRef n ++ (l' ++ joinChunks ps)) (regionRef n) (regionRef b) = _
      rw [pyReplace_token_match, pyReplace_lit_append hlit hrest, ih']
      simp [joinChunks]
    · show pyReplace (regionRef n ++ (l' ++ joinChunks ps)) (regionRef a) (regionRef b) = _
      rw [pyReplace_token_skip (fun hx => hn hx.symm), pyReplace_lit_append hlit hrest, ih']
      simp [joinChunks, hn]

theorem pyReplace_renderChunks {a b : Nat} {l : Str} {ps : List (Nat × Str)}
    (hl : TokenFree l) (hps : ∀ p ∈ ps, TokenFree p.2) :
    pyReplace (renderChunks l ps) (regionRef a) (regionRef b)
      = renderChunks l (ps.map (fun p => (if p.1 = a then b else p.1, p.2))) := by
  rw [renderChunks, pyReplace_lit_append hl (joinChunks_shape ps),
    pyReplace_joinChunks ps hps]
  rfl

/-- Effect on one original index of the sequence of textual replacement steps
performed by the remapping loop. -/
def applySteps (pairs : List (Nat × Nat)) (n : Nat) : Nat :=
  pairs.foldl (fun v p => if v = p.2 then p.1 else v) n

theorem foldl_pyReplace_renderChunks : ∀ (pairs : List (Nat × Nat)) (l : Str)
    (ps : List (Nat × Str)), TokenFree l → (∀ p ∈ ps, TokenFree p.2) →
    pairs.foldl (fun cb p => pyReplace cb (regionRef p.2) (regionRef p.1))
        (renderChunks l ps)
      = renderChunks l (ps.map (fun q => (applySteps pairs q.1, q.2))) := by
  intro pairs
  induction pairs with
  | nil =>
    intro l ps _ _
    simp [applySteps]
  | cons pr pairs ih =>
    intro l ps hl hps
    have hps' : ∀ q ∈ ps.map (fun p => (if p.1 = pr.2 then pr.1 else p.1, p.2)),
        TokenFree q.2 := by
      intro q hq
      simp only [List.mem_map] at hq
      obtain ⟨q', hq', rfl⟩ := hq
      exact hps q' hq'
    rw [List.foldl_cons, pyReplace_renderChunks hl hps, ih l _ hl hps', List.map_map]
    congr 1

end ChunkLemmas

section DecomposeLemmas

/-- Fuelled scanner decomposition of a string into its leading token-free
literal and the (token digit group, following literal) pairs, in scan order. -/
def decomposeF : Nat → Str → Str × List (Str × Str)
  | 0, _ => ([], [])
  | _ + 1, [] => ([], [])
  | f + 1, c :: cs =>
    match tokenAt (c :: cs) with
    | some (ds, rest) => ([], (ds, (decomposeF f rest).1) :: (decomposeF f rest).2)
    | none => (c :: (decomposeF f cs).1, (decomposeF f cs).2)

def decompose (s : Str) : Str × List (Str × Str) := decomposeF s.length s

/-- Raw rendering of scanner chunks, with the digit groups exactly as they
appeared in the source string. -/
def joinRaw : List (Str × Str) → Str
  | [] => []
  | (ds, l') :: ps => (regionsOpen ++ ds ++ [']']) ++ (l' ++ joinRaw ps)

theorem decomposeF_nil : ∀ f, decomposeF f [] = ([], []) := by
  intro f
  cases f <;> rfl

theorem decomposeF_irrel : ∀ f, ∀ g s, s.length ≤ f → s.length ≤ g →
    decomposeF f s = decomposeF g s := by
  intro f
  induction f using Nat.strong_induction_on with
  | _ f ih =>
    intro g s hf hg
    match s with
    | [] => rw [decomposeF_nil, decomposeF_nil]
    | c :: cs =>
      match f, g, hf, hg with
      | f' + 1, g' + 1, hf, hg =>
        simp only [List.length_cons] at hf hg
        cases htok : tokenAt (c :: cs) with
        | some p =>
          obtain ⟨ds, rest⟩ := p
          have hlen := tokenAt_some_length htok
          simp only [List.length_cons] at hlen
          simp only [decomposeF, htok]
          rw [ih f' (Nat.lt_succ_self f') g' rest (by omega) (by omega)]
        | none =>
          simp only [decomposeF, htok]
          rw [ih f' (Nat.lt_succ_self f') g' cs (by omega) (by omega)]

theorem decompose_nil : decompose [] = ([], []) := rfl

theorem decompose_match {s ds rest : Str} (h : tokenAt s = some (ds, rest)) :
    decompose s = ([], (ds, (decompose rest).1) :: (decompose rest).2) := by
  have hlen := tokenAt_some_length h
  match s with
  | [] => rw [tokenAt_nil] at h; exact absurd h (by simp)
  | c :: cs =>
    unfold decompose
    simp only [List.length_cons, decomposeF, h]
    simp only [List.length_cons] at hlen
    rw [decomposeF_irrel cs.length rest.length rest (by omega) (le_refl _)]

theorem decompose_nomatch {c : Char} {cs : Str} (h : tokenAt (c :: cs) = none) :
    decompose (c :: cs) = (c :: (decompose cs).1, (decompose cs).2) := by
  unfold decompose
  simp only [List.length_cons, decomposeF, h]

theorem decompose_spec_aux : ∀ n : Nat, ∀ s : Str, s.length ≤ n →
    (decompose s).1 ++ joinRaw (decompose s).2 = s
    ∧ TokenFree (decompose s).1
    ∧ (∀ p ∈ (decompose s).2, TokenFree p.2 ∧ p.1 ≠ [] ∧ ∀ c ∈ p.1, c.isDigit = true)
    ∧ scanRaw s = (decompose s).2.map (fun p => p.1) := by
  intro n
  induction n using Nat.strong_induction_on with
  | _ n ih =>
    intro s hs
    match s with
    | [] =>
      refine ⟨rfl, tokenFree_nil, ?_, rfl⟩
      intro p hp
      rw [decompose_nil] at hp
      exact absurd hp (by simp)
    | c :: cs =>
      simp only [List.length_cons] at hs
      cases htok : tokenAt (c :: cs) with
      | some p =>
        obtain ⟨ds, rest⟩ := p
        have hlen := tokenAt_some_length htok
        simp only [List.length_cons] at hlen
        obtain ⟨hne, hdig, hshape⟩ := tokenAt_eq_some_iff.mp htok
        obtain ⟨iha, ihb, ihc, ihd⟩ := ih rest.length (by omega) rest (le_refl _)
        rw [decompose_match htok]
        refine ⟨?_, tokenFree_nil, ?_, ?_⟩
        · show [] ++ (regionsOpen ++ ds ++ [']']) ++ ((decompose rest).1 ++ joinRaw (decompose rest).2) = c :: cs
          rw [List.nil_append, iha, hshape]
          simp
        · intro p hp
          simp only [List.mem_cons] at hp
          rcases hp with rfl | hp
          · exact ⟨ihb, hne, hdig⟩
          · exact ihc p hp
        · rw [scanRaw_match htok, ihd]
          rfl
      | none =>
        obtain ⟨iha, ihb, ihc, ihd⟩ := ih cs.length (by omega) cs (le_refl _)
        rw [decompose_nomatch htok]
        refine ⟨?_, ?_, ihc, ?_⟩
        · show (c :: (decompose cs).1) ++ joinRaw (decompose cs).2 = c :: cs
          rw [List.cons_append, iha]
        · intro v hv
          rcases List.suffix_cons_iff.mp hv with rfl | hv'
          · cases hx : tokenAt (c :: (decompose cs).1) with
            | none => rfl
            | some q =>
              obtain ⟨ds0, r0⟩ := q
              have hext := tokenAt_extend (u := joinRaw (decompose cs).2) hx
              rw [List.cons_append, iha] at hext
              rw [htok] at hext
              exact absurd hext (by simp)
          · exact ihb v hv'
        · rw [scanRaw_nomatch htok, ihd]

theorem decompose_spec (s : Str) :
    (decompose s).1 ++ joinRaw (decompose s).2 = s
    ∧ TokenFree (decompose s).1
    ∧ (∀ p ∈ (decompose s).2, TokenFree p.2 ∧ p.1 ≠ [] ∧ ∀ c ∈ p.1, c.isDigit = true)
    ∧ scanRaw s = (decompose s).2.map (fun p => p.1) :=
  decompose_spec_aux s.length s (le_refl _)

end DecomposeLemmas

section SortedIndexLemmas

theorem sorted_lt_ge_base : ∀ (l : List Nat), l.Sorted (· < ·) →
    ∀ base, (∀ x ∈ l, base ≤ x) → ∀ i, (h : i < l.length) → base + i ≤ l[i] := by
  intro l
  induction l with
  | nil => intro _ _ _ i h; exact absurd h (by simp)
  | cons a l ih =>
    intro hs base hb i h
    match i with
    | 0 => simpa using hb a (by simp)
    | j + 1 =>
      have hb' : ∀ x ∈ l, base + 1 ≤ x := by
        intro x hx
        have h1 : a < x := (List.sorted_cons.mp hs).1 x hx
        have h2 : base ≤ a := hb a (by simp)
        omega
      have hj : j < l.length := by simpa using Nat.lt_of_succ_lt_succ h
      have := ih hs.of_cons (base + 1) hb' j hj
      rw [List.getElem_cons_succ]
      omega

theorem sorted_lt_le_get (l : List Nat) (hs : l.Sorted (· < ·)) (i : Nat)
    (h : i < l.length) : i ≤ l[i] := by
  have := sorted_lt_ge_base l hs 0 (fun x _ => Nat.zero_le x) i h
  omega

theorem indexOf_get_of_nodup : ∀ (l : List Nat), l.Nodup → ∀ i, (h : i < l.length) →
    l.indexOf l[i] = i := by
  intro l
  induction l with
  | nil => intro _ i h; exact absurd h (by simp)
  | cons a l ih =>
    intro hnd i h
    match i with
    | 0 => simp
    | j + 1 =>
      have hj : j < l.length := by simpa using Nat.lt_of_succ_lt_succ h
      have hx : l[j] ∈ l := List.getElem_mem hj
      have hne : a ≠ l[j] := by
        intro hcontra
        exact (List.nodup_cons.mp hnd).1 (hcontra ▸ hx)
      rw [List.getElem_cons_succ, List.indexOf_cons_ne _ hne, ih (List.nodup_cons.mp hnd).2 j hj]

theorem applySteps_nil (n : Nat) : applySteps [] n = n := rfl

theorem applySteps_cons (p : Nat × Nat) (pairs : List (Nat × Nat)) (n : Nat) :
    applySteps (p :: pairs) n = applySteps pairs (if n = p.2 then p.1 else n) := rfl

theorem applySteps_untouched : ∀ (pairs : List (Nat × Nat)) (v : Nat),
    (∀ p ∈ pairs, v ≠ p.2) → applySteps pairs v = v := by
  intro pairs
  induction pairs with
  | nil => intro v _; rfl
  | cons p pairs ih =>
    intro v h
    rw [applySteps_cons, if_neg (h p (by simp))]
    exact ih v (fun q hq => h q (by simp [hq]))

theorem mem_enumFrom_snd : ∀ (l : List Nat) (k : Nat) (p : Nat × Nat),
    p ∈ List.enumFrom k l → p.2 ∈ l := by
  intro l
  induction l with
  | nil => intro k p h; exact absurd h (by simp)
  | cons a l ih =>
    intro k p h
    rw [List.enumFrom_cons] at h
    rcases List.mem_cons.mp h with rfl | h'
    · simp
    · exact List.mem_cons_of_mem a (ih (k + 1) p h')

theorem applySteps_enumFrom : ∀ (l : List Nat) (k n : Nat), l.Sorted (· < ·) →
    (∀ i, (h : i < l.length) → k + i ≤ l[i]) → n ∈ l →
    applySteps (List.enumFrom k l) n = k + l.indexOf n := by
  intro l
  induction l with
  | nil => intro k n _ _ h; exact absurd h (by simp)
  | cons a l ih =>
    intro k n hs hH hn
    rw [List.enumFrom_cons, applySteps_cons]
    by_cases hna : n = a
    · subst hna
      rw [if_pos rfl]
      have huntouch : applySteps (List.enumFrom (k + 1) l) k = k := by
        apply applySteps_untouched
        intro p hp
        have hp2 : p.2 ∈ l := mem_enumFrom_snd l (k + 1) p hp
        obtain ⟨j, hj, hget⟩ := List.mem_iff_getElem.mp hp2
        have := hH (j + 1) (by simpa using Nat.succ_lt_succ hj)
        rw [List.getElem_cons_succ] at this
        omega
      rw [huntouch, List.indexOf_cons_self]
      omega
    · rw [if_neg hna]
      have hH' : ∀ i, (h : i < l.length) → (k + 1) + i ≤ l[i] := by
        intro i hi
        have := hH (i + 1) (by simpa using Nat.succ_lt_succ hi)
        rw [List.getElem_cons_succ] at this
        omega
      have hn' : n ∈ l := by
        rcases List.mem_cons.mp hn with rfl | h'
        · exact absurd rfl hna
        · exact h'
      rw [ih (k + 1) n hs.of_cons hH' hn', List.indexOf_cons_ne _ (fun h => hna h.symm)]
      omega

theorem applySteps_enum {l : List Nat} (hs : l.Sorted (· < ·)) {n : Nat} (hn : n ∈ l) :
    applySteps l.enum n = l.indexOf n := by
  have hH : ∀ i, (h : i < l.length) → 0 + i ≤ l[i] := by
    intro i h
    have := sorted_lt_le_get l hs i h
    omega
  have := applySteps_enumFrom l 0 n hs hH hn
  simpa [List.enum] using this

end SortedIndexLemmas

section MapMLemmas

theorem mapM_get?_some {α : Type} : ∀ (S : List Nat) (regions : List α),
    (∀ i ∈ S, i < regions.length) →
    ∃ L, S.mapM (fun i => regions.get? i) = some L ∧ L.length = S.length ∧
      ∀ j, L.get? j = (S.get? j).bind (fun i => regions.get? i) := by
  intro S regions
  induction S with
  | nil =>
    intro _
    refine ⟨[], rfl, rfl, fun j => by cases j <;> rfl⟩
  | cons i S ih =>
    intro h
    obtain ⟨L, hL, hlen, hj⟩ := ih (fun x hx => h x (by simp [hx]))
    have hi : i < regions.length := h i (by simp)
    obtain ⟨a, ha⟩ : ∃ a, regions.get? i = some a := by
      rw [List.get?_eq_get hi]
      exact ⟨_, rfl⟩
    refine ⟨a :: L, ?_, by simp [hlen], ?_⟩
    · rw [List.mapM_cons, ha, hL]
      rfl
    · intro j
      match j with
      | 0 => exact ha.symm
      | j + 1 => simpa using hj j

theorem mapM_get?_none {α : Type} : ∀ (S : List Nat) (regions : List α) (i : Nat),
    i ∈ S → regions.length ≤ i → S.mapM (fun k => regions.get? k) = none := by
  intro S regions
  induction S with
  | nil => intro i h; exact absurd h (by simp)
  | cons j S ih =>
    intro i hi hlen
    rcases List.mem_cons.mp hi with rfl | hi'
    · have hnone : regions.get? i = none := List.get?_eq_none.mpr hlen
      rw [List.mapM_cons, hnone]
      rfl
    · cases hj : regions.get? j with
      | none => rw [List.mapM_cons, hj]; rfl
      | some a =>
        rw [List.mapM_cons, hj, ih i hi' hlen]
        rfl

end MapMLemmas

section ExtractCoreLemmas

theorem used_indices_facts (cb : Str) :
    (List.insertionSort (· ≤ ·) (((scanRaw cb).map natOfDigits).dedup)).Sorted (· < ·)
    ∧ (List.insertionSort (· ≤ ·) (((scanRaw cb).map natOfDigits).dedup)).Nodup
    ∧ ∀ a, a ∈ List.insertionSort (· ≤ ·) (((scanRaw cb).map natOfDigits).dedup)
        ↔ a ∈ (scanRaw cb).map natOfDigits := by
  have hperm : List.Perm (List.insertionSort (· ≤ ·) (((scanRaw cb).map natOfDigits).dedup))
      (((scanRaw cb).map natOfDigits).dedup) := List.perm_insertionSort _ _
  have hnodup : (List.insertionSort (· ≤ ·) (((scanRaw cb).map natOfDigits).dedup)).Nodup :=
    hperm.symm.nodup (List.nodup_dedup _)
  refine ⟨?_, hnodup, ?_⟩
  · exact (List.sorted_insertionSort _ _).lt_of_le hnodup
  · intro a
    rw [hperm.mem_iff, List.mem_dedup]

theorem joinChunks_of_raw : ∀ rs : List (Str × Str),
    (∀ p ∈ rs, p.1 = natDigits (natOfDigits p.1)) →
    joinChunks (rs.map (fun p => (natOfDigits p.1, p.2))) = joinRaw rs := by
  intro rs
  induction rs with
  | nil => intro _; rfl
  | cons q rs ih =>
    intro h
    obtain ⟨ds, l'⟩ := q
    have hq : ds = natDigits (natOfDigits ds) := h (ds, l') (by simp)
    show regionRef (natOfDigits ds) ++ (l' ++ joinChunks (rs.map _)) = _
    rw [ih (fun p hp => h p (by simp [hp]))]
    show (regionsOpen ++ natDigits (natOfDigits ds) ++ [']']) ++ (l' ++ joinRaw rs) = _
    rw [← hq]
    rfl

/-- Core of the density analysis: on a code block whose references are written
in canonical decimal, any sequence of whole-reference textual replacement
steps rewrites each scanned token, and nothing else, applying the composite
index substitution to every token value. -/
theorem scan_foldl_replace (cb : Str) (pairs : List (Nat × Nat))
    (hcanon : ∀ ds ∈ scanRaw cb, ds = natDigits (natOfDigits ds)) :
    scanRaw (pairs.foldl (fun acc p => pyReplace acc (regionRef p.2) (regionRef p.1)) cb)
      = (scanRaw cb).map (fun ds => natDigits (applySteps pairs (natOfDigits ds))) := by
  obtain ⟨hrender, hlit, hchunks, hscan⟩ := decompose_spec cb
  have hcanonChunks : ∀ p ∈ (decompose cb).2, p.1 = natDigits (natOfDigits p.1) := by
    intro p hp
    apply hcanon
    rw [hscan]
    exact List.mem_map_of_mem _ hp
  have hps : ∀ q ∈ (decompose cb).2.map (fun p => (natOfDigits p.1, p.2)), TokenFree q.2 := by
    intro q hq
    simp only [List.mem_map] at hq
    obtain ⟨p, hp, rfl⟩ := hq
    exact (hchunks p hp).1
  have hps2 : ∀ q ∈ ((decompose cb).2.map (fun p => (natOfDigits p.1, p.2))).map
      (fun q => (applySteps pairs q.1, q.2)), TokenFree q.2 := by
    intro q hq
    simp only [List.mem_map] at hq
    obtain ⟨p', hp', rfl⟩ := hq
    obtain ⟨p, hp, rfl⟩ := hp'
    exact (hchunks p hp).1
  have hcb : cb = renderChunks (decompose cb).1
      ((decompose cb).2.map (fun p => (natOfDigits p.1, p.2))) := by
    rw [renderChunks, joinChunks_of_raw _ hcanonChunks, hrender]
  conv_lhs => rw [hcb]
  rw [foldl_pyReplace_renderChunks _ _ _ hlit hps, scanRaw_renderChunks hlit hps2, hscan]
  simp [List.map_map, Function.comp]

end ExtractCoreLemmas

section ExtractClaimHelpers

theorem scanIndices_eq (s : Str) : scanIndices s = (scanRaw s).map natOfDigits := rfl

theorem extract_some_parts {α : Type} {text : Str} {regions : List α} {code : Str}
    {rest : List Str} {code' : Str} {filtered : List α}
    (hfb : findPythonBlocks text = code :: rest)
    (hsucc : extract_plans_and_regions text regions = some (code', filtered)) :
    code' = (List.insertionSort (· ≤ ·) (((scanRaw code).map natOfDigits).dedup)).enum.foldl
        (fun cb p => pyReplace cb (regionRef p.2) (regionRef p.1)) code
    ∧ (List.insertionSort (· ≤ ·) (((scanRaw code).map natOfDigits).dedup)).mapM
        (fun i => regions.get? i) = some filtered := by
  simp only [extract_plans_and_regions, hfb] at hsucc
  split at hsucc
  next => exact absurd hsucc (by simp)
  next L heq =>
    rw [Option.some.injEq, Prod.mk.injEq] at hsucc
    exact ⟨hsucc.1.symm, heq.trans (by rw [hsucc.2])⟩

theorem extract_eq_some {α : Type} {text : Str} {regions : List α} {code : Str}
    {rest : List Str} {L : List α}
    (hfb : findPythonBlocks text = code :: rest)
    (hmapM : (List.insertionSort (· ≤ ·) (((scanRaw code).map natOfDigits).dedup)).mapM
        (fun i => regions.get? i) = some L) :
    extract_plans_and_regions text regions
      = some ((List.insertionSort (· ≤ ·) (((scanRaw code).map natOfDigits).dedup)).enum.foldl
          (fun cb p => pyReplace cb (regionRef p.2) (regionRef p.1)) code, L) := by
  simp only [extract_plans_and_regions, hfb, hmapM]

end ExtractClaimHelpers

/-- C1: for every region list and every model text whose extracted python
code block references only indices inside `0..len(regions)-1`,
`extract_plans_and_regions` succeeds; the distinct referenced indices,
sorted in ascending numeric order, give the filtered list: its j-th element
is the original region at the j-th smallest distinct referenced index. -/
theorem C1_sorted_ascending_remap {α : Type} (text : Str) (regions : List α)
    (code : Str) (rest : List Str)
    (hfb : findPythonBlocks text = code :: rest)
    (hrange : ∀ i ∈ scanIndices code, i < regions.length) :
    ∃ code' filtered,
      extract_plans_and_regions text regions = some (code', filtered)
      ∧ (List.insertionSort (· ≤ ·) ((scanIndices code).dedup)).Sorted (· < ·)
      ∧ (∀ i, i ∈ List.insertionSort (· ≤ ·) ((scanIndices code).dedup)
          ↔ i ∈ scanIndices code)
      ∧ filtered.length = (List.insertionSort (· ≤ ·) ((scanIndices code).dedup)).length
      ∧ ∀ j, filtered.get? j
          = ((List.insertionSort (· ≤ ·) ((scanIndices code).dedup)).get? j).bind
              (fun i => regions.get? i) := by
  obtain ⟨hsort, hnodup, hmem⟩ := used_indices_facts code
  rw [← scanIndices_eq] at hsort hnodup hmem
  have hrange' : ∀ i ∈ List.insertionSort (· ≤ ·) ((scanIndices code).dedup),
      i < regions.length := fun i hi => hrange i ((hmem i).mp hi)
  obtain ⟨L, hL, hlen, hget⟩ := mapM_get?_some _ regions hrange'
  rw [scanIndices_eq] at hL
  refine ⟨_, L, extract_eq_some hfb hL, hsort, hmem, ?_, hget⟩
  rw [hlen, scanIndices_eq]

/-- Witness for C1 at the end-to-end scenario of the specification. -/
theorem C1_sorted_ascending_remap_witness :
    ∃ code' filtered,
      extract_plans_and_regions
          ("```python\npick(regions[2]); place(regions[0])\n```").data
          [10, 20, 30, 40, 50]
        = some (code', filtered)
      ∧ (List.insertionSort (· ≤ ·)
          ((scanIndices ("\npick(regions[2]); place(regions[0])\n").data).dedup)).Sorted
          (· < ·)
      ∧ (∀ i, i ∈ List.insertionSort (· ≤ ·)
            ((scanIndices ("\npick(regions[2]); place(regions[0])\n").data).dedup)
          ↔ i ∈ scanIndices ("\npick(regions[2]); place(regions[0])\n").data)
      ∧ filtered.length = (List.insertionSort (· ≤ ·)
          ((scanIndices ("\npick(regions[2]); place(regions[0])\n").data).dedup)).length
      ∧ ∀ j, filtered.get? j
          = ((List.insertionSort (· ≤ ·)
              ((scanIndices ("\npick(regions[2]); place(regions[0])\n").data).dedup)).get? j).bind
              (fun i => [10, 20, 30, 40, 50].get? i) :=
  C1_sorted_ascending_remap
    ("```python\npick(regions[2]); place(regions[0])\n```").data
    [10, 20, 30, 40, 50]
    ("\npick(regions[2]); place(regions[0])\n").data [] (by decide)
    (by decide)

/-- C4 counterexample: an out-of-range reference and a missing code block
produce the very same failure value, both from `extract_plans_and_regions`
(the `IndexError` handler returns the same `(None, None)` as the no-block
path) and from the strategy level, where both failures surface as the same
`success=false` result with the message "Invalid or no code is generated.":
no distinct `InvalidRegionIndex` classification exists anywhere. -/
theorem C4_no_distinct_classification_counterexample :
    extract_plans_and_regions ("```python regions[5]```").data [true]
      = extract_plans_and_regions ("no code block").data [true]
    ∧ extract_plans_and_regions ("```python regions[5]```").data [true] = none
    ∧ SegVLM.plan (some SegVLM.defaultConfigs) [true] ("```python regions[5]```").data
      = Except.ok ⟨false, some ("Invalid or no code is generated.").data,
          some ("```python regions[5]```").data, none, none⟩
    ∧ SegVLM.plan (some SegVLM.defaultConfigs) [true] ("no code block").data
      = Except.ok ⟨false, some ("Invalid or no code is generated.").data,
          some ("no code block").data, none, none⟩ := by
  refine ⟨?_, ?_, ?_, ?_⟩ <;> rfl

/-- C4 amended: a code fragment referencing an index outside
`0..len(regions)-1` makes the whole operation abort with the same failure
value `(None, None)` that a missing code block produces - no partial
filtered region list is returned, but no distinct error classification is
reported either. -/
theorem C4_oob_aborts {α : Type} (text : Str) (regions : List α) (code : Str)
    (rest : List Str) (i : Nat)
    (hfb : findPythonBlocks text = code :: rest)
    (hi : i ∈ scanIndices code) (hoob : regions.length ≤ i) :
    extract_plans_and_regions text regions = none := by
  obtain ⟨_, _, hmem⟩ := used_indices_facts code
  rw [← scanIndices_eq] at hmem
  have hiu : i ∈ List.insertionSort (· ≤ ·) ((scanIndices code).dedup) := (hmem i).mpr hi
  have hnone := mapM_get?_none _ regions i hiu hoob
  rw [scanIndices_eq] at hnone
  simp only [extract_plans_and_regions, hfb, hnone]

/-- Witness for the amended C4. -/
theorem C4_oob_aborts_witness :
    extract_plans_and_regions ("```python regions[5]```").data [true] = none :=
  C4_oob_aborts ("```python regions[5]```").data [true] (" regions[5]").data [] 5
    (by decide) (by decide) (by decide)

/-- C5 counterexample: a reference written with a leading zero is scanned as
its numeric value but never rewritten, so after a successful remap the
rewritten code can reference an index outside `\x7b0..k-1\x7d`.  Here the only
distinct referenced index gives k = 1, yet the rewritten code still
references index 1, not 0. -/
theorem C5_leading_zero_counterexample :
    extract_plans_and_regions ("```python regions[01]```").data [false, true]
      = some ((" regions[01]").data, [true])
    ∧ scanIndices (" regions[01]").data = [1]
    ∧ ((scanIndices (" regions[01]").data).dedup).length = 1
    ∧ ¬ (1 < 1) := by
  refine ⟨?_, ?_, ?_, ?_⟩ <;> decide

/-- C5 amended: provided every reference in the extracted code block is
written in canonical decimal (no leading zeros) - as every reference
produced by the rewriting itself is - a successful remap rewrites every
occurrence of each original reference, sending the index of each scanned
reference to its rank among the sorted distinct referenced indices, and the
set of indices referenced in the rewritten code is exactly
`\x7b0, 1, ..., k-1\x7d` with k the number of distinct referenced indices. -/
theorem C5_density_amended {α : Type} (text : Str) (regions : List α)
    (code code' : Str) (rest : List Str) (filtered : List α)
    (hfb : findPythonBlocks text = code :: rest)
    (hcanon : ∀ ds ∈ scanRaw code, ds = natDigits (natOfDigits ds))
    (hsucc : extract_plans_and_regions text regions = some (code', filtered)) :
    scanIndices code'
      = (scanIndices code).map
          (fun a => (List.insertionSort (· ≤ ·) ((scanIndices code).dedup)).indexOf a)
    ∧ ∀ m, m ∈ scanIndices code'
        ↔ m < (List.insertionSort (· ≤ ·) ((scanIndices code).dedup)).length := by
  obtain ⟨hcode', hmapM⟩ := extract_some_parts hfb hsucc
  obtain ⟨hsort, hnodup, hmem⟩ := used_indices_facts code
  rw [← scanIndices_eq] at hsort hnodup hmem
  have hfirst : scanIndices code'
      = (scanIndices code).map
          (fun a => (List.insertionSort (· ≤ ·) ((scanIndices code).dedup)).indexOf a) := by
    rw [hcode', scanIndices_eq, scan_foldl_replace code _ hcanon, List.map_map,
      scanIndices_eq, List.map_map]
    apply List.map_congr_left
    intro ds hds
    have hv : natOfDigits ds ∈ scanIndices code := by
      rw [scanIndices_eq]
      exact List.mem_map_of_mem _ hds
    have happly := applySteps_enum hsort ((hmem (natOfDigits ds)).mpr hv)
    simp only [Function.comp]
    rw [← scanIndices_eq, happly, natOfDigits_natDigits]
  refine ⟨hfirst, ?_⟩
  intro m
  rw [hfirst]
  constructor
  · intro hm
    obtain ⟨a, ha, rfl⟩ := List.mem_map.mp hm
    exact List.indexOf_lt_length.mpr ((hmem a).mpr ha)
  · intro hm
    apply List.mem_map.mpr
    refine ⟨(List.insertionSort (· ≤ ·) ((scanIndices code).dedup))[m], ?_, ?_⟩
    · exact (hmem _).mp (List.getElem_mem hm)
    · exact indexOf_get_of_nodup _ hnodup m hm

/-- Witness for the amended C5, on the end-to-end scenario code block. -/
theorem C5_density_amended_witness :
    scanIndices ("\npick(regions[1]); place(regions[0], x)\n").data
      = (scanIndices ("\npick(regions[2]); place(regions[0], x)\n").data).map
          (fun a => (List.insertionSort (· ≤ ·)
            ((scanIndices ("\npick(regions[2]); place(regions[0], x)\n").data).dedup)).indexOf a)
    ∧ ∀ m, m ∈ scanIndices ("\npick(regions[1]); place(regions[0], x)\n").data
        ↔ m < (List.insertionSort (· ≤ ·)
            ((scanIndices ("\npick(regions[2]); place(regions[0], x)\n").data).dedup)).length :=
  C5_density_amended
    ("```python\npick(regions[2]); place(regions[0], x)\n```").data
    [10, 20, 30]
    ("\npick(regions[2]); place(regions[0], x)\n").data
    ("\npick(regions[1]); place(regions[0], x)\n").data
    [] [10, 30]
    (by decide) (by decide) (by decide)

section BestBoxesLemmas

theorem alGet_dictInsert_self {β : Type} (k : Str) (v : β) : ∀ d : List (Str × β),
    alGet (dictInsert k v d) k = some v := by
  intro d
  induction d with
  | nil => simp [dictInsert, alGet]
  | cons p rest ih =>
    by_cases hp : p.1 = k
    · simp [dictInsert, hp, alGet]
    · simp only [dictInsert, hp, if_false, alGet]
      exact ih

theorem alGet_dictInsert_other {β : Type} (k k' : Str) (v : β) (hne : k ≠ k') :
    ∀ d : List (Str × β), alGet (dictInsert k v d) k' = alGet d k' := by
  intro d
  induction d with
  | nil => simp [dictInsert, alGet, hne]
  | cons p rest ih =>
    by_cases hp : p.1 = k
    · simp only [dictInsert, hp, if_true, alGet]
      rw [if_neg hne, if_neg (hp ▸ hne)]
    · simp only [dictInsert, hp, if_false, alGet]
      by_cases hp' : p.1 = k'
      · rw [if_pos hp', if_pos hp']
      · rw [if_neg hp', if_neg hp']
        exact ih

/-- One step of the best-box fold of lines 524-528. -/
def bbStep (bb : List (Str × Detection)) (det : Detection) : List (Str × Detection) :=
  match alGet bb det.box_name with
  | none => dictInsert det.box_name det bb
  | some best => if best.score < det.score then dictInsert det.box_name det bb else bb

theorem bestBoxes_eq_foldl (dets : List Detection) :
    VLMSeg.bestBoxes dets = dets.foldl bbStep [] := rfl

/-- Per-name view of one best-box fold step. -/
def bestAccStep (name : Str) (a : Option Detection) (d : Detection) : Option Detection :=
  if d.box_name = name then
    match a with
    | none => some d
    | some b => if b.score < d.score then some d else some b
  else a

def bestAcc (name : Str) (a : Option Detection) (dets : List Detection) : Option Detection :=
  dets.foldl (bestAccStep name) a

theorem alGet_bbStep (bb : List (Str × Detection)) (det : Detection) (name : Str) :
    alGet (bbStep bb det) name = bestAccStep name (alGet bb name) det := by
  by_cases hn : det.box_name = name
  · subst hn
    unfold bbStep bestAccStep
    cases halg : alGet bb det.box_name with
    | none => simp [halg, alGet_dictInsert_self]
    | some best =>
      by_cases hlt : best.score < det.score
      · simp [halg, hlt, alGet_dictInsert_self]
      · simp [halg, hlt]
  · unfold bbStep bestAccStep
    rw [if_neg hn]
    cases halg : alGet bb det.box_name with
    | none => simp [halg, alGet_dictInsert_other _ _ _ hn]
    | some best =>
      by_cases hlt : best.score < det.score
      · simp [halg, hlt, alGet_dictInsert_other _ _ _ hn]
      · simp [halg, hlt]

theorem bestBoxes_lookup_aux (name : Str) : ∀ (dets : List Detection)
    (bb : List (Str × Detection)),
    alGet (dets.foldl bbStep bb) name = bestAcc name (alGet bb name) dets := by
  intro dets
  induction dets with
  | nil => intro bb; rfl
  | cons det dets ih =>
    intro bb
    rw [List.foldl_cons, ih (bbStep bb det)]
    unfold bestAcc
    rw [List.foldl_cons, alGet_bbStep]

theorem bestBoxes_lookup (dets : List Detection) (name : Str) :
    alGet (VLMSeg.bestBoxes dets) name = bestAcc name none dets := by
  rw [bestBoxes_eq_foldl, bestBoxes_lookup_aux name dets []]
  rfl

/-- Accumulator analysis of the per-name fold: starting from a detection of
the right name, the fold returns the first detection of that name with a
score strictly above every earlier one and at least every later one, the
starting detection counting as position zero. -/
theorem bestAcc_some_spec (name : Str) : ∀ (dets : List Detection) (b : Detection),
    b.box_name = name →
    ∃ d, bestAcc name (some b) dets = some d ∧ d.box_name = name ∧ b.score ≤ d.score
      ∧ ∃ pre post, b :: dets = pre ++ d :: post
        ∧ (∀ e ∈ pre, e.box_name = name → e.score < d.score)
        ∧ (∀ e ∈ post, e.box_name = name → e.score ≤ d.score) := by
  intro dets
  induction dets with
  | nil =>
    intro b hb
    exact ⟨b, rfl, hb, le_refl _, [], [], rfl, by simp, by simp⟩
  | cons e dets ih =>
    intro b hb
    by_cases hen : e.box_name = name
    · by_cases hlt : b.score < e.score
      · obtain ⟨d, hd, hdn, hscore, pre, post, hsplit, hpre, hpost⟩ := ih e hen
        refine ⟨d, ?_, hdn, le_of_lt (lt_of_lt_of_le hlt hscore), b :: pre, post, ?_, ?_, hpost⟩
        · unfold bestAcc at hd ⊢
          rw [List.foldl_cons]
          have hstepval : bestAccStep name (some b) e = some e := by
            unfold bestAccStep
            simp [hen, hlt]
          rw [hstepval]
          exact hd
        · rw [List.cons_append, ← hsplit]
        · intro x hx hxn
          rcases List.mem_cons.mp hx with rfl | hx'
          · exact lt_of_lt_of_le hlt hscore
          · exact hpre x hx' hxn
      · obtain ⟨d, hd, hdn, hscore, pre, post, hsplit, hpre, hpost⟩ := ih b hb
        have hstep : bestAcc name (some b) (e :: dets) = bestAcc name (some b) dets := by
          unfold bestAcc
          rw [List.foldl_cons]
          have hstepval : bestAccStep name (some b) e = some b := by
            unfold bestAccStep
            simp [hen, hlt]
          rw [hstepval]
        rw [hstep, hd]
        match pre, hsplit with
        | [], hsplit =>
          have hbd : b = d := (List.cons.injEq _ _ _ _ ▸ hsplit).1
          have hdets : dets = post := (List.cons.injEq _ _ _ _ ▸ hsplit).2
          refine ⟨d, rfl, hdn, hscore, [], e :: post, by rw [← hdets, ← hbd]; rfl, by simp, ?_⟩
          intro x hx hxn
          rcases List.mem_cons.mp hx with rfl | hx'
          · have : x.score ≤ b.score := le_of_not_lt hlt
            exact le_trans this (hbd ▸ hscore)
          · exact hpost x hx' hxn
        | p :: pre', hsplit =>
          have hpb : p = b := (List.cons.injEq _ _ _ _ ▸ hsplit).1.symm
          have hdets : dets = pre' ++ d :: post := (List.cons.injEq _ _ _ _ ▸ hsplit).2
          have hblt : b.score < d.score := by
            have := hpre p (by simp) (by rw [hpb]; exact hb)
            rwa [hpb] at this
          refine ⟨d, rfl, hdn, hscore, b :: e :: pre', post, ?_, ?_, hpost⟩
          · rw [hdets]
            simp
          · intro x hx hxn
            rcases List.mem_cons.mp hx with rfl | hx'
            · exact hblt
            · rcases List.mem_cons.mp hx' with rfl | hx''
              · exact lt_of_le_of_lt (le_of_not_lt hlt) hblt
              · exact hpre x (List.mem_cons_of_mem p hx'') hxn
    · obtain ⟨d, hd, hdn, hscore, pre, post, hsplit, hpre, hpost⟩ := ih b hb
      have hstep : bestAcc name (some b) (e :: dets) = bestAcc name (some b) dets := by
        unfold bestAcc
        rw [List.foldl_cons]
        have hstepval : bestAccStep name (some b) e = some b := by
          unfold bestAccStep
          simp [hen]
        rw [hstepval]
      rw [hstep, hd]
      match pre, hsplit with
      | [], hsplit =>
        have hbd : b = d := (List.cons.injEq _ _ _ _ ▸ hsplit).1
        have hdets : dets = post := (List.cons.injEq _ _ _ _ ▸ hsplit).2
        refine ⟨d, rfl, hdn, hscore, [], e :: post, by rw [← hdets, ← hbd]; rfl, by simp, ?_⟩
        intro x hx hxn
        rcases List.mem_cons.mp hx with rfl | hx'
        · exact absurd hxn hen
        · exact hpost x hx' hxn
      | p :: pre', hsplit =>
        have hpb : p = b := (List.cons.injEq _ _ _ _ ▸ hsplit).1.symm
        have hdets : dets = pre' ++ d :: post := (List.cons.injEq _ _ _ _ ▸ hsplit).2
        refine ⟨d, rfl, hdn, hscore, b :: e :: pre', post, ?_, ?_, hpost⟩
        · rw [hdets]
          simp
        · intro x hx hxn
          rcases List.mem_cons.mp hx with rfl | hx'
          · have := hpre p (by simp) (by rw [hpb]; exact hb)
            rwa [hpb] at this
          · rcases List.mem_cons.mp hx' with rfl | hx''
            · exact absurd hxn hen
            · exact hpre x (List.mem_cons_of_mem p hx'') hxn

end BestBoxesLemmas

section BestBoxesMore

theorem bestAcc_none_some_spec (name : Str) : ∀ (dets : List Detection) (d : Detection),
    bestAcc name none dets = some d →
    d.box_name = name
    ∧ ∃ pre post, dets = pre ++ d :: post
      ∧ (∀ e ∈ pre, e.box_name = name → e.score < d.score)
      ∧ (∀ e ∈ post, e.box_name = name → e.score ≤ d.score) := by
  intro dets
  induction dets with
  | nil => intro d hd; exact absurd hd (by simp [bestAcc])
  | cons e dets ih =>
    intro d hd
    by_cases hen : e.box_name = name
    · have hstep : bestAcc name none (e :: dets) = bestAcc name (some e) dets := by
        unfold bestAcc
        rw [List.foldl_cons]
        have hstepval : bestAccStep name none e = some e := by
          unfold bestAccStep
          simp [hen]
        rw [hstepval]
      rw [hstep] at hd
      obtain ⟨d', hd', hdn, _, pre, post, hsplit, hpre, hpost⟩ := bestAcc_some_spec name dets e hen
      rw [hd'] at hd
      cases hd
      exact ⟨hdn, pre, post, hsplit, hpre, hpost⟩
    · have hstep : bestAcc name none (e :: dets) = bestAcc name none dets := by
        unfold bestAcc
        rw [List.foldl_cons]
        have hstepval : bestAccStep name none e = none := by
          unfold bestAccStep
          simp [hen]
        rw [hstepval]
      rw [hstep] at hd
      obtain ⟨hdn, pre, post, hsplit, hpre, hpost⟩ := ih d hd
      refine ⟨hdn, e :: pre, post, by rw [hsplit]; rfl, ?_, hpost⟩
      intro x hx hxn
      rcases List.mem_cons.mp hx with rfl | hx'
      · exact absurd hxn hen
      · exact hpre x hx' hxn

theorem bestAcc_none_iff (name : Str) : ∀ dets : List Detection,
    bestAcc name none dets = none ↔ ∀ e ∈ dets, e.box_name ≠ name := by
  intro dets
  induction dets with
  | nil => simp [bestAcc]
  | cons e dets ih =>
    by_cases hen : e.box_name = name
    · have hstep : bestAcc name none (e :: dets) = bestAcc name (some e) dets := by
        unfold bestAcc
        rw [List.foldl_cons]
        have hstepval : bestAccStep name none e = some e := by
          unfold bestAccStep
          simp [hen]
        rw [hstepval]
      obtain ⟨d', hd', _⟩ := bestAcc_some_spec name dets e hen
      rw [hstep, hd']
      constructor
      · intro h; exact absurd h (by simp)
      · intro h; exact absurd hen (h e (by simp))
    · have hstep : bestAcc name none (e :: dets) = bestAcc name none dets := by
        unfold bestAcc
        rw [List.foldl_cons]
        have hstepval : bestAccStep name none e = none := by
          unfold bestAccStep
          simp [hen]
        rw [hstepval]
      rw [hstep, ih]
      constructor
      · intro h x hx
        rcases List.mem_cons.mp hx with rfl | hx'
        · exact hen
        · exact h x hx'
      · intro h x hx
        exact h x (List.mem_cons_of_mem e hx)

theorem mem_keys_dictInsert {β : Type} (k x : Str) (v : β) : ∀ d : List (Str × β),
    x ∈ (dictInsert k v d).map Prod.fst ↔ x = k ∨ x ∈ d.map Prod.fst := by
  intro d
  induction d with
  | nil => simp [dictInsert]
  | cons p rest ih =>
    by_cases hp : p.1 = k
    · simp only [dictInsert, hp, if_true, List.map_cons, List.mem_cons]
      constructor
      · rintro (h | h)
        · exact Or.inl h
        · exact Or.inr (Or.inr h)
      · rintro (h | h | h)
        · exact Or.inl h
        · exact Or.inl h
        · exact Or.inr h
    · simp only [dictInsert, hp, if_false, List.map_cons, List.mem_cons, ih]
      exact or_left_comm

theorem keys_nodup_dictInsert {β : Type} (k : Str) (v : β) : ∀ d : List (Str × β),
    (d.map Prod.fst).Nodup → ((dictInsert k v d).map Prod.fst).Nodup := by
  intro d
  induction d with
  | nil => intro _; simp [dictInsert]
  | cons p rest ih =>
    intro hnd
    simp only [List.map_cons, List.nodup_cons] at hnd
    by_cases hp : p.1 = k
    · simp only [dictInsert, hp, if_true, List.map_cons, List.nodup_cons]
      exact ⟨hp ▸ hnd.1, hnd.2⟩
    · simp only [dictInsert, hp, if_false, List.map_cons, List.nodup_cons]
      refine ⟨?_, ih hnd.2⟩
      rw [mem_keys_dictInsert]
      push_neg
      exact ⟨hp, hnd.1⟩

theorem bestBoxes_keys_nodup (dets : List Detection) :
    ((VLMSeg.bestBoxes dets).map Prod.fst).Nodup := by
  rw [bestBoxes_eq_foldl]
  have key : ∀ (l : List Detection) (bb : List (Str × Detection)),
      (bb.map Prod.fst).Nodup → ((l.foldl bbStep bb).map Prod.fst).Nodup := by
    intro l
    induction l with
    | nil => intro bb h; exact h
    | cons det l ih =>
      intro bb h
      rw [List.foldl_cons]
      apply ih
      have hcases : bbStep bb det = dictInsert det.box_name det bb ∨ bbStep bb det = bb := by
        unfold bbStep
        cases alGet bb det.box_name with
        | none => exact Or.inl rfl
        | some best =>
          by_cases hlt : best.score < det.score
          · simp [hlt]
          · simp [hlt]
      rcases hcases with hc | hc <;> rw [hc]
      · exact keys_nodup_dictInsert _ _ bb h
      · exact h
  exact key dets [] (by simp)

end BestBoxesMore

/-- C8: the best-of-N reduction of lines 524-528 keeps exactly one detection
per distinct name - one whose score is strictly above every earlier
detection of the same name and at least every later one, so it has the
strictly highest score when one exists, and score ties keep the detection
seen first in the sequence; a name is kept exactly when it is detected, and
the kept table has no duplicate names. -/
theorem C8_best_of_n_dedup (dets : List Detection) (name : Str) :
    (∀ d, alGet (VLMSeg.bestBoxes dets) name = some d →
        d.box_name = name
        ∧ ∃ pre post, dets = pre ++ d :: post
          ∧ (∀ e ∈ pre, e.box_name = name → e.score < d.score)
          ∧ (∀ e ∈ post, e.box_name = name → e.score ≤ d.score))
    ∧ ((∃ e ∈ dets, e.box_name = name) ↔ ∃ d, alGet (VLMSeg.bestBoxes dets) name = some d)
    ∧ ((VLMSeg.bestBoxes dets).map Prod.fst).Nodup := by
  refine ⟨?_, ?_, bestBoxes_keys_nodup dets⟩
  · intro d hd
    rw [bestBoxes_lookup] at hd
    exact bestAcc_none_some_spec name dets d hd
  · rw [bestBoxes_lookup]
    constructor
    · intro ⟨e, he, hen⟩
      cases hb : bestAcc name none dets with
      | none => exact absurd hen ((bestAcc_none_iff name dets).mp hb e he)
      | some d => exact ⟨d, rfl⟩
    · intro ⟨d, hd⟩
      obtain ⟨hdn, pre, post, hsplit, _, _⟩ := bestAcc_none_some_spec name dets d hd
      exact ⟨d, by rw [hsplit]; simp, hdn⟩

/-- Witness for C8 at the detection sequence of the specification example:
the kept "cup" detection is the one with score 0.9, first-best in place. -/
theorem C8_best_of_n_dedup_witness :
    (⟨("cup").data, mkRat 9 10, [0, 0, 2, 2]⟩ : Detection).box_name = ("cup").data
    ∧ ∃ pre post,
      [⟨("cup").data, mkRat 2 5, [0, 0, 1, 1]⟩, ⟨("cup").data, mkRat 9 10, [0, 0, 2, 2]⟩,
        ⟨("mug").data, mkRat 7 10, [1, 1, 2, 2]⟩]
        = pre ++ (⟨("cup").data, mkRat 9 10, [0, 0, 2, 2]⟩ : Detection) :: post
      ∧ (∀ e ∈ pre, e.box_name = ("cup").data
          → e.score < ((⟨("cup").data, mkRat 9 10, [0, 0, 2, 2]⟩ : Detection)).score)
      ∧ (∀ e ∈ post, e.box_name = ("cup").data
          → e.score ≤ ((⟨("cup").data, mkRat 9 10, [0, 0, 2, 2]⟩ : Detection)).score) :=
  (C8_best_of_n_dedup
    [⟨("cup").data, mkRat 2 5, [0, 0, 1, 1]⟩, ⟨("cup").data, mkRat 9 10, [0, 0, 2, 2]⟩,
      ⟨("mug").data, mkRat 7 10, [1, 1, 2, 2]⟩] ("cup").data).1
    ⟨("cup").data, mkRat 9 10, [0, 0, 2, 2]⟩ (by decide)

/-- C2: the claim that every strategy returns `success=false` when extraction
or binding fails is right as a specification, but `DetLLM.plan` violates it:
after `extract_plans_and_regions` returns `(None, None)` for a response with
no python code block, the method still builds a `PlanResult` with
`success=True`, a missing `plan_code` and missing bound regions (lines
419-428 perform no check, unlike the other strategies). -/
theorem C2_detllm_success_with_missing_plan {α : Type} (dets : List Detection)
    (segment : List ℚ → α) (plan_raw : Str)
    (hne : dets.length ≠ 0)
    (hnb : findPythonBlocks plan_raw = []) :
    (∀ (masks : List α), extract_plans_and_regions plan_raw masks = none)
    ∧ DetLLM.plan (some DetLLM.defaultConfigs) dets segment plan_raw
      = Except.ok ⟨true, none, some plan_raw, none, none⟩ := by
  have hex : ∀ (masks : List α), extract_plans_and_regions plan_raw masks = none := by
    intro masks
    simp only [extract_plans_and_regions, hnb]
  refine ⟨hex, ?_⟩
  cases dets with
  | nil => exact absurd rfl hne
  | cons d ds =>
    have hplan : DetLLM.plan (some DetLLM.defaultConfigs) (d :: ds) segment plan_raw
        = Except.ok ⟨true, none, some plan_raw,
            (extract_plans_and_regions plan_raw
              ((d :: ds).map (fun obj => segment obj.bbox))).map (fun p => p.2),
            (extract_plans_and_regions plan_raw
              ((d :: ds).map (fun obj => segment obj.bbox))).map (fun p => p.1)⟩ := rfl
    rw [hplan, hex]
    rfl

/-- Witness for C2 at a concrete detection list and extraction-failing text. -/
theorem C2_detllm_success_with_missing_plan_witness :
    (∀ (masks : List Nat),
        extract_plans_and_regions ("no code block here").data masks = none)
    ∧ DetLLM.plan (some DetLLM.defaultConfigs)
        [⟨("cup").data, mkRat 2 5, [0, 0, 1, 1]⟩]
        (fun _ => (0 : Nat)) ("no code block here").data
      = Except.ok ⟨true, none, some ("no code block here").data, none, none⟩ :=
  C2_detllm_success_with_missing_plan
    [⟨("cup").data, mkRat 2 5, [0, 0, 1, 1]⟩]
    (fun _ => (0 : Nat)) ("no code block here").data (by decide) (by rfl)

/-- C3: the claim that a successful name-based `PlanResult` binds exactly one
best-scoring region per requested name, in requested-name order, is right as
a specification, but line 555 passes the raw `detected_objects` records (not
their best-per-name selection `boxes_of_interest`, and not even their `bbox`
fields) to the segmentor, so the bound `masks` list has one element per raw
detection, in detection order: here three masks for two requested names,
with both "cup" detections bound. -/
theorem C3_masks_bound_from_all_detections :
    VLMSeg.resolveAndBind (some VLMSeg.defaultConfigs)
        (some ("pick(object=\"cup\"); pick(object=\"mug\")").data)
        (some (JsonVal.arr
          [JsonVal.obj [(("name").data, JsonVal.str ("cup").data),
            (("aliases").data, JsonVal.arr [])],
           JsonVal.obj [(("name").data, JsonVal.str ("mug").data),
            (("aliases").data, JsonVal.arr [])]]))
        (fun _ => [⟨("cup").data, mkRat 2 5, [0, 0, 1, 1]⟩,
          ⟨("cup").data, mkRat 9 10, [0, 0, 2, 2]⟩,
          ⟨("mug").data, mkRat 7 10, [1, 1, 2, 2]⟩])
        id ("raw").data
      = Except.ok ⟨true, none, some ("raw").data,
          some [⟨("cup").data, mkRat 2 5, [0, 0, 1, 1]⟩,
            ⟨("cup").data, mkRat 9 10, [0, 0, 2, 2]⟩,
            ⟨("mug").data, mkRat 7 10, [1, 1, 2, 2]⟩],
          some ("pick(object=\"regions[0]\"); pick(object=\"regions[1]\")").data⟩
    ∧ ([⟨("cup").data, mkRat 2 5, [0, 0, 1, 1]⟩,
        ⟨("cup").data, mkRat 9 10, [0, 0, 2, 2]⟩,
        ⟨("mug").data, mkRat 7 10, [1, 1, 2, 2]⟩] : List Detection)
      ≠ [⟨("cup").data, mkRat 9 10, [0, 0, 2, 2]⟩,
        ⟨("mug").data, mkRat 7 10, [1, 1, 2, 2]⟩] := by
  exact ⟨rfl, by decide⟩

/-- C6: the claim that name substitution is applied longest-name-first is
right as a specification, but lines 566-568 substitute in the order of the
objects-of-interest list: with "cup" before "cupholder", replacing "cup"
first corrupts every "cupholder" occurrence, so the longer name never
receives its own region reference. -/
theorem C6_substitution_in_list_order_corrupts :
    VLMSeg.substituteNames [("cup").data, ("cupholder").data]
        ("pick(object=\"cup\"); open(object=\"cupholder\")").data
      = ("pick(object=\"regions[0]\"); open(object=\"regions[0]holder\")").data
    ∧ ("pick(object=\"regions[0]\"); open(object=\"regions[0]holder\")").data
      ≠ ("pick(object=\"regions[0]\"); open(object=\"regions[1]\")").data := by
  exact ⟨rfl, by decide⟩

/-- C7 counterexample: with a python block present and a json block that does
not deserialize, the name-based extraction raises the deserialization
exception uncaught, and `plan` propagates it to the caller: no classified
`MalformedStructuredBlock` failure result exists, the claimed behaviour does
not happen. -/
theorem C7_unclassified_exception_counterexample :
    VLMSeg.extract_objects_of_interest_from_vlm_response
        ("```python x() ``` ```json not json ```").data
      = Except.error PyErr.jsonDecodeError
    ∧ VLMSeg.plan (some VLMSeg.defaultConfigs)
        ("```python x() ``` ```json not json ```").data
        (fun _ => []) (fun _ => (0 : Nat))
      = Except.error PyErr.jsonDecodeError := by
  exact ⟨rfl, rfl⟩

/-- C7 amended: when the json block is present but fails to deserialize, the
extraction of lines 471-487 raises the `json.loads` exception, nothing
catches it, and `plan` propagates it to the caller instead of returning a
classified failure result; when the block deserializes, the extraction
returns the parsed value unvalidated, whatever its shape. -/
theorem C7_json_error_propagates {α : Type} (cfg : CfgDict) (t cb jb : Str)
    (rest1 rest2 : List Str)
    (hpb : findPythonBlocks t = cb :: rest1)
    (hjb : findJsonBlocks t = jb :: rest2) :
    (∀ e, json_loads jb = Except.error e →
      VLMSeg.extract_objects_of_interest_from_vlm_response t
          = Except.error PyErr.jsonDecodeError
        ∧ ∀ (detect : List Str → List Detection) (segment : Detection → α),
            VLMSeg.plan (some cfg) t detect segment = Except.error PyErr.jsonDecodeError)
    ∧ (∀ v, json_loads jb = Except.ok v →
      VLMSeg.extract_objects_of_interest_from_vlm_response t
        = Except.ok (some (cb, v))) := by
  constructor
  · intro e he
    have hex : VLMSeg.extract_objects_of_interest_from_vlm_response t
        = Except.error PyErr.jsonDecodeError := by
      unfold VLMSeg.extract_objects_of_interest_from_vlm_response
      rw [hpb, hjb]
      simp only [he]
    refine ⟨hex, ?_⟩
    intro detect segment
    unfold VLMSeg.plan
    rw [hex]
    rfl
  · intro v hv
    unfold VLMSeg.extract_objects_of_interest_from_vlm_response
    rw [hpb, hjb]
    simp only [hv]

/-- Witness for the amended C7. -/
theorem C7_json_error_propagates_witness :
    VLMSeg.extract_objects_of_interest_from_vlm_response
        ("```python y() ``` ```json [oops] ```").data
      = Except.error PyErr.jsonDecodeError
    ∧ VLMSeg.plan (some VLMSeg.defaultConfigs)
        ("```python y() ``` ```json [oops] ```").data
        (fun _ => []) (fun _ => (0 : Nat))
      = Except.error PyErr.jsonDecodeError := by
  have h := (C7_json_error_propagates (α := Nat) VLMSeg.defaultConfigs
      ("```python y() ``` ```json [oops] ```").data
      (" y() ").data (" [oops] ").data [] [] rfl rfl).1 () rfl
  exact ⟨h.1, h.2 (fun _ => []) (fun _ => (0 : Nat))⟩

/-- C9 counterexample: when the model response holds a python block and a
json block that fails to deserialize, `VLMSeg.plan` raises the
deserialization error, not the unbound-local error, so the claim that every
call raises an unbound-local error is too strong. -/
theorem C9_json_error_preempts_counterexample :
    VLMSeg.plan (some VLMSeg.defaultConfigs)
        ("```python z() ``` ```json \x7bbroken ```").data
        (fun _ => []) (fun _ => (0 : Nat))
      = Except.error PyErr.jsonDecodeError
    ∧ PyErr.jsonDecodeError ≠ PyErr.unboundLocal ("objects_of_interest").data := by
  exact ⟨rfl, by decide⟩

/-- C9 amended: `VLMSeg.plan` never returns a `PlanResult`, success or
failure: whenever the response extraction returns (blocks missing, or json
deserialized), the line-504 check reads the local `objects_of_interest`
before its line-512 assignment and raises `UnboundLocalError`; when the json
block is present but malformed, the `json.loads` error of line 480 raises
first instead. -/
theorem C9_plan_never_returns {α : Type} (cfg : CfgDict) (t : Str)
    (detect : List Str → List Detection) (segment : Detection → α) :
    (¬ ∃ pr, VLMSeg.plan (some cfg) t detect segment = Except.ok pr)
    ∧ (∀ x, VLMSeg.extract_objects_of_interest_from_vlm_response t = Except.ok x →
        VLMSeg.plan (some cfg) t detect segment
          = Except.error (PyErr.unboundLocal ("objects_of_interest").data))
    ∧ (∀ e, VLMSeg.extract_objects_of_interest_from_vlm_response t = Except.error e →
        VLMSeg.plan (some cfg) t detect segment = Except.error e) := by
  have hok : ∀ x, VLMSeg.extract_objects_of_interest_from_vlm_response t = Except.ok x →
      VLMSeg.plan (some cfg) t detect segment
        = Except.error (PyErr.unboundLocal ("objects_of_interest").data) := by
    intro x hx
    unfold VLMSeg.plan
    rw [hx]
    rfl
  have herr : ∀ e, VLMSeg.extract_objects_of_interest_from_vlm_response t = Except.error e →
      VLMSeg.plan (some cfg) t detect segment = Except.error e := by
    intro e he
    unfold VLMSeg.plan
    rw [he]
    rfl
  refine ⟨?_, hok, herr⟩
  rintro ⟨pr, hpr⟩
  cases hx : VLMSeg.extract_objects_of_interest_from_vlm_response t with
  | ok x => rw [hok x hx] at hpr; exact absurd hpr (by simp)
  | error e => rw [herr e hx] at hpr; exact absurd hpr (by simp)

/-- Witness for the amended C9. -/
theorem C9_plan_never_returns_witness :
    VLMSeg.plan (some VLMSeg.defaultConfigs) ("```python p() ``` ```json [] ```").data
        (fun _ => []) (fun _ => (0 : Nat))
      = Except.error (PyErr.unboundLocal ("objects_of_interest").data) :=
  (C9_plan_never_returns VLMSeg.defaultConfigs ("```python p() ``` ```json [] ```").data
      (fun _ => []) (fun _ => (0 : Nat))).2.1
    (some ((" p() ").data, JsonVal.arr [])) rfl

/-- C10: in every strategy constructor, a caller-supplied configs dict makes
the configs attribute the return value of `dict.update`, which is `None`;
any later `plan()` call then fails with a `TypeError` at its first
configuration lookup (`"img_size" in self.configs`).  Only constructing with
configs omitted or `None` keeps the documented defaults. -/
theorem C10_configs_update_returns_none (c : CfgDict) :
    (SegVLM.initConfigs (some c) = none ∧ DetVLM.initConfigs (some c) = none
      ∧ DetLLM.initConfigs (some c) = none ∧ VLMSeg.initConfigs (some c) = none)
    ∧ (SegVLM.initConfigs none = some SegVLM.defaultConfigs
      ∧ DetVLM.initConfigs none = some DetVLM.defaultConfigs
      ∧ DetLLM.initConfigs none = some DetLLM.defaultConfigs
      ∧ VLMSeg.initConfigs none = some VLMSeg.defaultConfigs)
    ∧ (∀ (masks : List Nat) (raw : Str),
        SegVLM.plan (SegVLM.initConfigs (some c)) masks raw
          = Except.error (PyErr.typeError ("argument of type NoneType is not iterable").data))
    ∧ (∀ (dets : List Detection) (segB : List ℚ → Nat) (raw : Str),
        DetVLM.plan (DetVLM.initConfigs (some c)) dets segB raw
          = Except.error (PyErr.typeError ("argument of type NoneType is not iterable").data))
    ∧ (∀ (dets : List Detection) (segB : List ℚ → Nat) (raw : Str),
        DetLLM.plan (DetLLM.initConfigs (some c)) dets segB raw
          = Except.error (PyErr.typeError ("argument of type NoneType is not iterable").data))
    ∧ (∀ (raw : Str) (detect : List Str → List Detection) (segment : Detection → Nat),
        VLMSeg.plan (VLMSeg.initConfigs (some c)) raw detect segment
          = Except.error (PyErr.typeError ("argument of type NoneType is not iterable").data)) := by
  refine ⟨⟨rfl, rfl, rfl, rfl⟩, ⟨rfl, rfl, rfl, rfl⟩, ?_, ?_, ?_, ?_⟩
  · intro masks raw; rfl
  · intro dets segB raw; rfl
  · intro dets segB raw; rfl
  · intro raw detect segment; rfl

/-- Witness for C10 at a concrete caller-supplied configs dict. -/
theorem C10_configs_update_returns_none_witness :
    SegVLM.plan (SegVLM.initConfigs (some [(("alpha").data, CfgVal.nat 1)]))
        ([] : List Nat) ("x").data
      = Except.error (PyErr.typeError ("argument of type NoneType is not iterable").data) :=
  (C10_configs_update_returns_none [(("alpha").data, CfgVal.nat 1)]).2.2.1 [] ("x").data
